import Mathlib

/-!
Verification of the core of `populate_data.py`: the text chunker
(`simple_text_splitter`), the documentation-page extractor
(`get_docs_pages_df`), and the docstring extractor (`get_docstrings_df`).

Texts are modelled as `List Char` (Python strings), chunk lists as
`List (List Char)`.  The `while` loop of the splitter is embedded with an
explicit fuel parameter; running out of fuel yields `none`, so termination
of the source loop is expressed as the result being `some`.
-/

namespace PopulateData

/-- Embedding of the `while start < len(text)` loop of `simple_text_splitter`
(`populate_data.py` lines 33-41).  One fuel unit is one loop iteration.
`text[start:end]` is `(text.drop start).take cs`; the Python clamp
`if start < 0: start = 0` is subsumed by truncated `Nat` subtraction in
`start + cs - co`. -/
def splitLoop (text : List Char) (cs co : Nat) : Nat → Nat → List (List Char) → Option (List (List Char))
  | 0, _, _ => none
  | fuel + 1, start, acc =>
    if start < text.length then
      let chunk := (text.drop start).take cs
      let acc2 := acc ++ [chunk]
      if text.length ≤ start + cs then some acc2
      else splitLoop text cs co fuel (start + cs - co) acc2
    else some acc

/-- Embedding of `simple_text_splitter(text, chunk_size, chunk_overlap)`
(`populate_data.py` lines 29-42).  The fuel `text.length + 1` bounds the
number of loop iterations; whenever the advance `cs - co` is positive the
loop finishes within that many iterations, so the result is `some` of the
chunk list. -/
def simple_text_splitter (text : List Char) (cs co : Nat) : Option (List (List Char)) :=
  splitLoop text cs co (text.length + 1) 0 []

/-- The chunk list emitted by the splitter loop from cursor position `start`
onward, as a well-founded recursion (reference form used in proofs). -/
def tailChunks (text : List Char) (cs co start : Nat) : List (List Char) :=
  if _h : co < cs ∧ start < text.length then
    if text.length ≤ start + cs then [(text.drop start).take cs]
    else (text.drop start).take cs :: tailChunks text cs co (start + (cs - co))
  else []
termination_by text.length - start
decreasing_by
  simp_wf
  omega

/-- "Concatenation with dedup": the first chunk, followed by every later
chunk with its first `co` characters (the overlap with its predecessor)
removed. -/
def mergeChunks (co : Nat) : List (List Char) → List Char
  | [] => []
  | c :: rest => c ++ (rest.map (fun x => x.drop co)).flatten

/-- The splitter's chunk list as a plain list (the extractors always call it
with `chunk_overlap < chunk_size`, where the fuel never runs out, so the
default `[]` is never taken there). -/
def chunksOf (s : List Char) (cs co : Nat) : List (List Char) :=
  (simple_text_splitter s cs co).getD []

/-- One row of the STREAMLIT_DOCS_PAGES_CHUNKS table: `PAGE_URL` (nullable)
and `PAGE_CHUNK` (`populate_data.py` lines 73-78). -/
structure PageRow where
  page_url : Option String
  page_chunk : String
deriving DecidableEq

/-- Embedding of `PAGE_SEP_RE.split(full_str)` with `PAGE_SEP_RE = "^---$"`
(MULTILINE, `populate_data.py` lines 49 and 57): scan the text left to right;
every occurrence of `---` forming a complete line (at a line start, followed
by a newline or the end) is removed and ends the current piece.  `atStart`
says whether the scan position is a line start; `acc` holds the current piece
reversed. -/
def splitPagesAux : List Char → Bool → List Char → List (List Char)
  | [], _, acc => [acc.reverse]
  | '-' :: '-' :: '-' :: r, true, acc =>
    if r.isEmpty || r.head? == some '\n' then acc.reverse :: splitPagesAux r false []
    else splitPagesAux r false ('-' :: '-' :: '-' :: acc)
  | c :: rest, _, acc => splitPagesAux rest (c == '\n') (c :: acc)

/-- `re.split("^---$", full, flags=MULTILINE)`: position 0 is a line start. -/
def splitPages (full : List Char) : List (List Char) := splitPagesAux full true []

/-- Split a character list at every occurrence of `sep` (the pieces of the
text between newlines are exactly the lines the MULTILINE anchors `^ $`
delimit). -/
def splitOnChar (sep : Char) : List Char → List (List Char)
  | [] => [[]]
  | c :: r =>
    match splitOnChar sep r with
    | g :: gs => if c = sep then [] :: g :: gs else (c :: g) :: gs
    | [] => [[c]]

/-- The literal line marker of `URL_RE = "^Source: (.*)$"`. -/
def sourceMarker : List Char := ['S', 'o', 'u', 'r', 'c', 'e', ':', ' ']

/-- Embedding of the `URL_RE.finditer` loop with its `break`
(`populate_data.py` lines 63-68): the first line of the page block matching
`^Source: (.*)$` yields the captured rest of that line; `None` otherwise.
(The guard `match.lastindex == 1` always holds: the pattern has one group.) -/
def firstSourceUrl (p : List Char) : Option String :=
  ((splitOnChar '\n' p).find? (fun l => sourceMarker.isPrefixOf l)).map
    (fun l => String.mk (l.drop 8))

/-- Embedding of `get_docs_pages_df`'s row-building loop
(`populate_data.py` lines 60-81), taking the fetched corpus as input: for
each page block of the `^---$` split, chunk the whole block with the default
parameters (1000, 200) and append one row per chunk, every row carrying the
block's first `Source:` URL. -/
def get_docs_pages_df (full : List Char) : List PageRow :=
  (splitPages full).foldl
    (fun rows page =>
      (chunksOf page 1000 200).foldl
        (fun rows2 c => rows2 ++ [PageRow.mk (firstSourceUrl page) (String.mk c)]) rows)
    []

/-- A decimal digit character. -/
def digitChar (d : Nat) : Char :=
  if d = 0 then '0' else if d = 1 then '1' else if d = 2 then '2'
  else if d = 3 then '3' else if d = 4 then '4' else if d = 5 then '5'
  else if d = 6 then '6' else if d = 7 then '7' else if d = 8 then '8' else '9'

/-- Decimal rendering of a natural number (most significant digit first),
with explicit fuel (the digit count is at most `n + 1`, so the fuel in
`natDigits` never runs out). -/
def natDigitsAux : Nat → Nat → List Char → List Char
  | 0, _, acc => acc
  | fuel + 1, n, acc =>
    if n < 10 then digitChar n :: acc
    else natDigitsAux fuel (n / 10) (digitChar (n % 10) :: acc)

/-- Decimal rendering of a natural number, e.g. `natDigits 205 = "205".data`. -/
def natDigits (n : Nat) : List Char := natDigitsAux (n + 1) n []

/-- Join character groups with `.` between them. -/
def joinDotted : List (List Char) → List Char
  | [] => []
  | [g] => g
  | g :: g2 :: gs => g ++ '.' :: joinDotted (g2 :: gs)

/-- Modelled from the spec: `str(version.parse(...))` of the external
`packaging.version` library for release-only versions — the normalized form
is the dot-joined decimal release segments (any `v` marker and leading zeros
are gone). -/
def verString (v : List Nat) : String := String.mk (joinDotted (v.map natDigits))

/-- Modelled from the spec: `packaging.version.parse` restricted to
release-style semantic versions — an optional `v`/`V` marker followed by
dot-separated decimal segments parses to its list of numeric segments;
anything else raises `InvalidVersion` (here: `none`). -/
def parseVer (s : String) : Option (List Nat) :=
  let cs := match s.data with
    | 'v' :: r => r
    | 'V' :: r => r
    | cs => cs
  let segs := splitOnChar '.' cs
  if segs.all (fun g => !g.isEmpty && g.all Char.isDigit) then
    some (segs.map (fun g => g.foldl (fun a c => a * 10 + (c.toNat - 48)) 0))
  else none

/-- Modelled from the spec: the strict order of parsed versions — release
segment lists compared lexicographically with implicit zero padding on the
right (PEP 440: `1.0 == 1.0.0`). -/
def verLt : List Nat → List Nat → Bool
  | [], bs => !(bs.all (fun b => b == 0))
  | _ :: _, [] => false
  | a :: as, b :: bs => decide (a < b) || (a == b && verLt as bs)

/-- Python's `max` on a non-empty list: keep the current value unless a later
element is strictly greater (ties keep the earliest). -/
def maxOf (v : List Nat) (vs : List (List Nat)) : List Nat :=
  vs.foldl (fun acc w => if verLt acc w then w else acc) v

/-- `d[k]` lookup in an insertion-ordered dictionary (association list with
unique keys): the first binding of `k`, if any. -/
def dictGet {α : Type} (d : List (String × α)) (k : String) : Option α :=
  (d.find? (fun p => p.1 == k)).map (fun p => p.2)

/-- `d[k] = v` assignment in an insertion-ordered dictionary: overwrite in
place if `k` is present, else append the new binding at the end. -/
def dictSet {α : Type} (d : List (String × α)) (k : String) (v : α) : List (String × α) :=
  if d.any (fun p => p.1 == k) then
    d.map (fun p => if p.1 == k then (k, v) else p)
  else d ++ [(k, v)]

/-- A parsed JSON value, the type of the per-command doc values inside the
fetched `streamlit.json` tree. -/
inductive JsonVal where
  | str (s : String)
  | num (n : Int)
  | boolean (b : Bool)
  | null
  | arr (xs : List JsonVal)
  | obj (fields : List (String × JsonVal))

def quoteChar : Char := Char.ofNat 34

def backslashChar : Char := Char.ofNat 92

def squoteChar : Char := Char.ofNat 39

def lbraceChar : Char := Char.ofNat 123

def rbraceChar : Char := Char.ofNat 125

/-- JSON string-content escaping as `json.dumps` performs it on printable
ASCII text: only the double quote and the backslash get a backslash. -/
def escapeStr : List Char → List Char
  | [] => []
  | c :: r =>
    (if c = quoteChar ∨ c = backslashChar then [backslashChar, c] else [c]) ++ escapeStr r

/-- Decimal rendering of an integer (Python `str`/`json.dumps` form). -/
def intChars (i : Int) : List Char :=
  if i < 0 then '-' :: natDigits i.natAbs else natDigits i.toNat

mutual
/-- Modelled from the spec: `json.dumps` with default options (separators
`", "` and `": "`, insertion key order kept), faithful for values whose
strings are printable ASCII. -/
def jsonDumps : JsonVal → List Char
  | .null => ['n', 'u', 'l', 'l']
  | .boolean true => ['t', 'r', 'u', 'e']
  | .boolean false => ['f', 'a', 'l', 's', 'e']
  | .num i => intChars i
  | .str s => quoteChar :: escapeStr s.data ++ [quoteChar]
  | .arr xs => '[' :: dumpsArr xs ++ [']']
  | .obj fs => lbraceChar :: dumpsObj fs ++ [rbraceChar]
def dumpsArr : List JsonVal → List Char
  | [] => []
  | [x] => jsonDumps x
  | x :: y :: xs => jsonDumps x ++ ',' :: ' ' :: dumpsArr (y :: xs)
def dumpsObj : List (String × JsonVal) → List Char
  | [] => []
  | [(k, v)] => quoteChar :: escapeStr k.data ++ [quoteChar] ++ ':' :: ' ' :: jsonDumps v
  | (k, v) :: f :: fs =>
    quoteChar :: escapeStr k.data ++ [quoteChar] ++ ':' :: ' ' :: jsonDumps v
      ++ ',' :: ' ' :: dumpsObj (f :: fs)
end

mutual
/-- Modelled from the spec: Python `repr` of a JSON-shaped value (single
quotes around strings, `True`/`False`/`None`, `", "` and `": "` separators),
faithful for strings without quotes or escapes. -/
def pyRepr : JsonVal → List Char
  | .null => ['N', 'o', 'n', 'e']
  | .boolean true => ['T', 'r', 'u', 'e']
  | .boolean false => ['F', 'a', 'l', 's', 'e']
  | .num i => intChars i
  | .str s => squoteChar :: s.data ++ [squoteChar]
  | .arr xs => '[' :: pyReprArr xs ++ [']']
  | .obj fs => lbraceChar :: pyReprObj fs ++ [rbraceChar]
def pyReprArr : List JsonVal → List Char
  | [] => []
  | [x] => pyRepr x
  | x :: y :: xs => pyRepr x ++ ',' :: ' ' :: pyReprArr (y :: xs)
def pyReprObj : List (String × JsonVal) → List Char
  | [] => []
  | [(k, v)] => squoteChar :: k.data ++ [squoteChar] ++ ':' :: ' ' :: pyRepr v
  | (k, v) :: f :: fs =>
    squoteChar :: k.data ++ [squoteChar] ++ ':' :: ' ' :: pyRepr v
      ++ ',' :: ' ' :: pyReprObj (f :: fs)
end

/-- Python `str()` of a JSON-shaped value: a string is itself, anything else
renders as its `repr`. -/
def pyStr : JsonVal → List Char
  | .str s => s.data
  | v => pyRepr v

/-- Embedding of the doc-value normalization (`populate_data.py` lines
110-114): a dict value is serialized with `json.dumps`, any other value goes
through `str(...)`. -/
def chunkStrOf : JsonVal → String
  | .obj fs => String.mk (jsonDumps (.obj fs))
  | v => String.mk (pyStr v)

/-- One row of the STREAMLIT_DOCSTRINGS_CHUNKS table (`populate_data.py`
lines 119-125). -/
structure DocstringRow where
  streamlit_version : String
  command_name : String
  docstring_chunk : String
deriving DecidableEq

/-- The parsed `streamlit.json` tree: insertion-ordered version dictionary,
each version mapping command names to doc values. -/
abbrev VersionedDocTree := List (String × List (String × JsonVal))

/-- The failures of `get_docstrings_df`'s version-resolution step, named as
in the spec's error taxonomy: `invalidInput` is the `ValueError` that
`max(all_versions)` raises on an empty list (no top-level key parsed);
`keyError` is the failed `docstrings_dict[str(latest_version)]` lookup. -/
inductive PopulateError where
  | invalidInput
  | keyError (k : String)
deriving DecidableEq

/-- Embedding of `get_docstrings_df`'s row-building loops (`populate_data.py`
lines 106-125): for every version entry, every command, and every chunk of
the normalized doc string (split with `chunk_size=2000, chunk_overlap=200`),
append one row. -/
def rowsOfDict (d : VersionedDocTree) : List DocstringRow :=
  d.foldl
    (fun acc p =>
      p.2.foldl
        (fun acc2 q =>
          (chunksOf (chunkStrOf q.2).data 2000 200).foldl
            (fun acc3 c => acc3 ++ [DocstringRow.mk p.1 q.1 (String.mk c)]) acc2)
        acc)
    []

/-- The rows one version entry contributes, in traversal order (normal form
used in the theorems). -/
def rowsOfVersion (ver : String) (docs : List (String × JsonVal)) : List DocstringRow :=
  docs.flatMap
    (fun q => (chunksOf (chunkStrOf q.2).data 2000 200).map
      (fun c => DocstringRow.mk ver q.1 (String.mk c)))

/-- Embedding of `get_docstrings_df` (`populate_data.py` lines 84-128),
taking the parsed tree as input: collect the top-level keys that parse as
versions (in key order); `max` of an empty collection raises
(`invalidInput`); otherwise the entry of `str(latest_version)` is looked up
(a missing key raises `keyError`), assigned to the key `"latest"`, and the
row loops run over the updated dictionary. -/
def get_docstrings_df (d : VersionedDocTree) : Except PopulateError (List DocstringRow) :=
  match d.filterMap (fun p => parseVer p.1) with
  | [] => Except.error PopulateError.invalidInput
  | v :: vs =>
    match dictGet d (verString (maxOf v vs)) with
    | none => Except.error (PopulateError.keyError (verString (maxOf v vs)))
    | some entry => Except.ok (rowsOfDict (dictSet d "latest" entry))

/-- Greedy decimal scan: consume leading digits into an accumulator. -/
def parseAuxD : Nat → List Char → Nat × List Char
  | acc, [] => (acc, [])
  | acc, c :: r => if c.isDigit then parseAuxD (acc * 10 + (c.toNat - 48)) r else (acc, c :: r)

/-- Parse a non-empty run of leading digits, else fail. -/
def parseDigits (cs : List Char) : Option (Nat × List Char) :=
  match cs with
  | [] => none
  | c :: r => if c.isDigit then some (parseAuxD 0 (c :: r)) else none

/-- Parse a JSON string body after the opening quote: content up to the
closing quote, honoring the two escapes `\"` and `\\`. -/
def parseJStr : List Char → Option (List Char × List Char)
  | [] => none
  | c :: r =>
    if c = quoteChar then some ([], r)
    else if c = backslashChar then
      match r with
      | [] => none
      | e :: r2 =>
        if e = quoteChar ∨ e = backslashChar then
          (parseJStr r2).map (fun p => (e :: p.1, p.2))
        else none
    else (parseJStr r).map (fun p => (c :: p.1, p.2))

mutual
/-- Modelled from the spec: `json.loads`'s recursive-descent value parser on
the canonical form `json.dumps` emits (separators `", "`, `": "`); fuel
bounds the recursion depth, `none` on exhaustion or on malformed input. -/
def parseJ : Nat → List Char → Option (JsonVal × List Char)
  | 0, _ => none
  | fuel + 1, cs =>
    match cs with
    | [] => none
    | c :: r =>
      if c = 'n' then
        if r.head? = some 'u' ∧ r.tail.head? = some 'l' ∧ r.tail.tail.head? = some 'l' then
          some (.null, r.tail.tail.tail)
        else none
      else if c = 't' then
        if r.head? = some 'r' ∧ r.tail.head? = some 'u' ∧ r.tail.tail.head? = some 'e' then
          some (.boolean true, r.tail.tail.tail)
        else none
      else if c = 'f' then
        if r.head? = some 'a' ∧ r.tail.head? = some 'l' ∧ r.tail.tail.head? = some 's'
            ∧ r.tail.tail.tail.head? = some 'e' then
          some (.boolean false, r.tail.tail.tail.tail)
        else none
      else if c = '-' then
        (parseDigits r).map (fun p => (JsonVal.num (-(p.1 : Int)), p.2))
      else if c = quoteChar then
        (parseJStr r).map (fun p => (JsonVal.str (String.mk p.1), p.2))
      else if c = '[' then
        if r.head? = some ']' then some (.arr [], r.tail)
        else (parseElems fuel r).map (fun p => (JsonVal.arr p.1, p.2))
      else if c = lbraceChar then
        if r.head? = some rbraceChar then some (.obj [], r.tail)
        else (parseFields fuel r).map (fun p => (JsonVal.obj p.1, p.2))
      else if c.isDigit then
        (parseDigits (c :: r)).map (fun p => (JsonVal.num (p.1 : Int), p.2))
      else none
/-- The elements of a non-empty array after the opening bracket. -/
def parseElems : Nat → List Char → Option (List JsonVal × List Char)
  | 0, _ => none
  | fuel + 1, cs =>
    (parseJ fuel cs).bind (fun vr =>
      if vr.2.head? = some ']' then some ([vr.1], vr.2.tail)
      else if vr.2.head? = some ',' ∧ vr.2.tail.head? = some ' ' then
        (parseElems fuel vr.2.tail.tail).map (fun p => (vr.1 :: p.1, p.2))
      else none)
/-- The fields of a non-empty object after the opening brace. -/
def parseFields : Nat → List Char → Option (List (String × JsonVal) × List Char)
  | 0, _ => none
  | fuel + 1, cs =>
    match cs with
    | [] => none
    | c :: r =>
      if c = quoteChar then
        (parseJStr r).bind (fun kr =>
          if kr.2.head? = some ':' ∧ kr.2.tail.head? = some ' ' then
            (parseJ fuel kr.2.tail.tail).bind (fun vr =>
              if vr.2.head? = some rbraceChar then
                some ([(String.mk kr.1, vr.1)], vr.2.tail)
              else if vr.2.head? = some ',' ∧ vr.2.tail.head? = some ' ' then
                (parseFields fuel vr.2.tail.tail).map
                  (fun p => ((String.mk kr.1, vr.1) :: p.1, p.2))
              else none)
          else none)
      else none
end

/-- Modelled from the spec: `json.loads` on a whole document — parse one
value and require the input to be fully consumed.  The fuel
`2 * length + 2` dominates the recursion depth of any successful parse. -/
def jsonLoads (s : String) : Option JsonVal :=
  match parseJ (2 * s.data.length + 2) s.data with
  | some (v, []) => some v
  | _ => none

mutual
/-- Fuel bound for the parser roundtrip: an upper bound on the recursion
depth `parseJ` needs on `jsonDumps v`. -/
def jsize : JsonVal → Nat
  | .arr xs => 2 + jsizeA xs
  | .obj fs => 2 + jsizeO fs
  | _ => 1
def jsizeA : List JsonVal → Nat
  | [] => 0
  | x :: xs => 1 + jsize x + jsizeA xs
def jsizeO : List (String × JsonVal) → Nat
  | [] => 0
  | (_, v) :: fs => 1 + jsize v + jsizeO fs
end

theorem splitLoop_eq_tailChunks (text : List Char) (cs co : Nat) (hco : co < cs) :
    ∀ fuel start acc, start < text.length → text.length ≤ start + fuel →
      splitLoop text cs co fuel start acc = some (acc ++ tailChunks text cs co start) := by
  intro fuel
  induction fuel with
  | zero => intro start acc hs hf; omega
  | succ fuel ih =>
    intro start acc hs hf
    rw [splitLoop, if_pos hs, tailChunks, dif_pos ⟨hco, hs⟩]
    by_cases hend : text.length ≤ start + cs
    · rw [if_pos hend, if_pos hend]
    · rw [if_neg hend, if_neg hend]
      have hrw : start + cs - co = start + (cs - co) := by omega
      rw [hrw, ih (start + (cs - co)) _ (by omega) (by omega)]
      simp

theorem splitter_eq_tailChunks (text : List Char) (cs co : Nat) (hco : co < cs) :
    simple_text_splitter text cs co = some (tailChunks text cs co 0) := by
  by_cases hlen : 0 < text.length
  · rw [simple_text_splitter,
      splitLoop_eq_tailChunks text cs co hco (text.length + 1) 0 [] hlen (by omega)]
    simp
  · have h0 : text.length = 0 := by omega
    rw [simple_text_splitter, splitLoop, if_neg (by omega), tailChunks,
      dif_neg (by omega)]

theorem tailChunks_ne_nil (text : List Char) (cs co start : Nat) (hco : co < cs)
    (hs : start < text.length) : tailChunks text cs co start ≠ [] := by
  rw [tailChunks, dif_pos ⟨hco, hs⟩]
  split <;> simp

theorem tailChunks_get (text : List Char) (cs co : Nat) (hco : co < cs) :
    ∀ k start, text.length - start ≤ k →
      ∀ i, i < (tailChunks text cs co start).length →
        (tailChunks text cs co start)[i]? =
          some ((text.drop (start + i * (cs - co))).take cs) := by
  intro k
  induction k with
  | zero =>
    intro start hk i h
    rw [tailChunks, dif_neg (by omega)] at h
    simp at h
  | succ k ih =>
    intro start hk i h
    by_cases hs : start < text.length
    · rw [tailChunks, dif_pos ⟨hco, hs⟩] at h ⊢
      by_cases hend : text.length ≤ start + cs
      · rw [if_pos hend] at h ⊢
        have hi : i = 0 := by simpa using h
        subst hi
        simp
      · rw [if_neg hend] at h ⊢
        cases i with
        | zero => simp
        | succ j =>
          have hj : j < (tailChunks text cs co (start + (cs - co))).length := by
            simpa using h
          have hrec := ih (start + (cs - co)) (by omega) j hj
          rw [List.getElem?_cons_succ, hrec, Nat.succ_mul]
          congr 3
          omega
    · rw [tailChunks, dif_neg (by omega)] at h
      simp at h

theorem tailChunks_window_lt (text : List Char) (cs co : Nat) (hco : co < cs) :
    ∀ k start, text.length - start ≤ k →
      ∀ i, i + 1 < (tailChunks text cs co start).length →
        start + i * (cs - co) + cs < text.length := by
  intro k
  induction k with
  | zero =>
    intro start hk i h
    rw [tailChunks, dif_neg (by omega)] at h
    simp at h
  | succ k ih =>
    intro start hk i h
    by_cases hs : start < text.length
    · rw [tailChunks, dif_pos ⟨hco, hs⟩] at h
      by_cases hend : text.length ≤ start + cs
      · rw [if_pos hend] at h
        simp at h
      · rw [if_neg hend] at h
        cases i with
        | zero => simpa using hend
        | succ j =>
          have hj : j + 1 < (tailChunks text cs co (start + (cs - co))).length := by
            simpa using h
          have := ih (start + (cs - co)) (by omega) j hj
          rw [Nat.succ_mul]
          omega
    · rw [tailChunks, dif_neg (by omega)] at h
      simp at h

theorem tailChunks_start_lt (text : List Char) (cs co : Nat) (hco : co < cs) :
    ∀ k start, text.length - start ≤ k →
      ∀ i, i < (tailChunks text cs co start).length →
        start + i * (cs - co) < text.length := by
  intro k
  induction k with
  | zero =>
    intro start hk i h
    rw [tailChunks, dif_neg (by omega)] at h
    simp at h
  | succ k ih =>
    intro start hk i h
    by_cases hs : start < text.length
    · rw [tailChunks, dif_pos ⟨hco, hs⟩] at h
      by_cases hend : text.length ≤ start + cs
      · rw [if_pos hend] at h
        have hi : i = 0 := by simpa using h
        subst hi
        simpa using hs
      · rw [if_neg hend] at h
        cases i with
        | zero => simpa using hs
        | succ j =>
          have hj : j < (tailChunks text cs co (start + (cs - co))).length := by
            simpa using h
          have := ih (start + (cs - co)) (by omega) j hj
          rw [Nat.succ_mul]
          omega
    · rw [tailChunks, dif_neg (by omega)] at h
      simp at h

theorem tailChunks_last_ge (text : List Char) (cs co : Nat) (hco : co < cs) :
    ∀ k start, text.length - start ≤ k → start < text.length →
      text.length ≤ start + ((tailChunks text cs co start).length - 1) * (cs - co) + cs := by
  intro k
  induction k with
  | zero => intro start hk hs; omega
  | succ k ih =>
    intro start hk hs
    rw [tailChunks, dif_pos ⟨hco, hs⟩]
    by_cases hend : text.length ≤ start + cs
    · rw [if_pos hend]
      simpa using hend
    · rw [if_neg hend]
      have hs2 : start + (cs - co) < text.length := by omega
      have := ih (start + (cs - co)) (by omega) hs2
      have hne := tailChunks_ne_nil text cs co (start + (cs - co)) hco hs2
      have hlen : 0 < (tailChunks text cs co (start + (cs - co))).length :=
        List.length_pos.mpr hne
      simp only [List.length_cons]
      have hrw : (tailChunks text cs co (start + (cs - co))).length + 1 - 1 =
          ((tailChunks text cs co (start + (cs - co))).length - 1) + 1 := by omega
      rw [hrw, Nat.succ_mul]
      omega

theorem tailChunks_joinDrop (text : List Char) (cs co : Nat) (hco : co < cs) :
    ∀ k start, text.length - start ≤ k → start < text.length →
      ((tailChunks text cs co start).map (fun c => c.drop co)).flatten =
        text.drop (start + co) := by
  intro k
  induction k with
  | zero => intro start hk hs; omega
  | succ k ih =>
    intro start hk hs
    rw [tailChunks, dif_pos ⟨hco, hs⟩]
    by_cases hend : text.length ≤ start + cs
    · rw [if_pos hend]
      simp only [List.map_cons, List.map_nil, List.flatten_cons, List.flatten_nil,
        List.append_nil]
      rw [List.drop_take, List.drop_drop]
      have hlen2 : (text.drop (start + co)).length ≤ cs - co := by
        simp only [List.length_drop]
        omega
      rw [List.take_of_length_le hlen2]
    · rw [if_neg hend]
      have hs2 : start + (cs - co) < text.length := by omega
      simp only [List.map_cons, List.flatten_cons]
      rw [ih (start + (cs - co)) (by omega) hs2]
      rw [List.drop_take, List.drop_drop]
      have hL : List.drop (start + (cs - co) + co) text =
          List.drop (cs - co) (List.drop (start + co) text) := by
        rw [List.drop_drop]
        congr 1
        omega
      rw [hL]
      exact List.take_append_drop (cs - co) (text.drop (start + co))

theorem tailChunks_merge (text : List Char) (cs co : Nat) (hco : co < cs) :
    ∀ k start, text.length - start ≤ k → start < text.length →
      mergeChunks co (tailChunks text cs co start) = text.drop start := by
  intro k
  induction k with
  | zero => intro start hk hs; omega
  | succ k ih =>
    intro start hk hs
    rw [tailChunks, dif_pos ⟨hco, hs⟩]
    by_cases hend : text.length ≤ start + cs
    · rw [if_pos hend]
      simp only [mergeChunks, List.map_nil, List.flatten_nil, List.append_nil]
      apply List.take_of_length_le
      simp only [List.length_drop]
      omega
    · rw [if_neg hend]
      have hs2 : start + (cs - co) < text.length := by omega
      simp only [mergeChunks]
      rw [tailChunks_joinDrop text cs co hco k (start + (cs - co)) (by omega) hs2]
      have harg : start + (cs - co) + co = start + cs := by omega
      rw [harg]
      have hdd : text.drop (start + cs) = (text.drop start).drop cs := by
        rw [List.drop_drop]
      rw [hdd]
      exact List.take_append_drop cs (text.drop start)

theorem tailChunks_get_elem (text : List Char) (cs co : Nat) (hco : co < cs)
    (i : Nat) (hi : i < (tailChunks text cs co 0).length) :
    (tailChunks text cs co 0).get ⟨i, hi⟩ =
      (text.drop (i * (cs - co))).take cs := by
  have h1 := tailChunks_get text cs co hco text.length 0 (by omega) i hi
  have h2 : (tailChunks text cs co 0)[i]? = some ((tailChunks text cs co 0).get ⟨i, hi⟩) := by
    rw [List.getElem?_eq_getElem hi]
    simp
  rw [h2] at h1
  have := Option.some.inj h1
  simpa using this

/-- C1: for `0 ≤ chunk_overlap < chunk_size`, on a non-empty text the splitter
returns a non-empty chunk list in which every chunk except the last has length
exactly `chunk_size`, every chunk is non-empty, and the last chunk is a tail
segment of the text ending exactly at its end; on the empty text it returns
the empty list. -/
theorem claim_C1 (text : List Char) (cs co : Nat) (h : co < cs) :
    (text ≠ [] → ∃ l, simple_text_splitter text cs co = some l ∧ l ≠ [] ∧
      (∀ c ∈ l.dropLast, c.length = cs) ∧ (∀ c ∈ l, c ≠ []) ∧
      ∃ k, k < text.length ∧ l.getLast? = some (text.drop k)) ∧
    simple_text_splitter [] cs co = some [] := by
  constructor
  · intro hne
    have hlen : 0 < text.length := List.length_pos.mpr hne
    refine ⟨tailChunks text cs co 0, splitter_eq_tailChunks text cs co h, ?_, ?_, ?_, ?_⟩
    · exact tailChunks_ne_nil text cs co 0 h hlen
    · intro c hc
      obtain ⟨i, hilt, hie⟩ := List.mem_iff_getElem.mp hc
      have hilt2 : i < (tailChunks text cs co 0).length := by
        have := List.length_dropLast (tailChunks text cs co 0)
        omega
      have hget : (tailChunks text cs co 0).dropLast[i] = (tailChunks text cs co 0)[i] := by
        exact List.getElem_dropLast ..
      have hval : (tailChunks text cs co 0)[i] = (text.drop (i * (cs - co))).take cs := by
        have := tailChunks_get_elem text cs co h i hilt2
        simpa [List.get_eq_getElem] using this
      have hwin : 0 + i * (cs - co) + cs < text.length := by
        apply tailChunks_window_lt text cs co h text.length 0 (by omega)
        have := List.length_dropLast (tailChunks text cs co 0)
        omega
      rw [← hie, hget, hval]
      simp only [List.length_take, List.length_drop]
      omega
    · intro c hc
      obtain ⟨i, hilt, hie⟩ := List.mem_iff_getElem.mp hc
      have hst : 0 + i * (cs - co) < text.length :=
        tailChunks_start_lt text cs co h text.length 0 (by omega) i hilt
      have hval : (tailChunks text cs co 0)[i] = (text.drop (i * (cs - co))).take cs := by
        have := tailChunks_get_elem text cs co h i hilt
        simpa [List.get_eq_getElem] using this
      rw [← hie, hval]
      apply List.ne_nil_of_length_pos
      simp only [List.length_take, List.length_drop]
      omega
    · have hnn := tailChunks_ne_nil text cs co 0 h hlen
      have hpos : 0 < (tailChunks text cs co 0).length := List.length_pos.mpr hnn
      refine ⟨((tailChunks text cs co 0).length - 1) * (cs - co), ?_, ?_⟩
      · have := tailChunks_start_lt text cs co h text.length 0 (by omega)
          ((tailChunks text cs co 0).length - 1) (by omega)
        omega
      · rw [List.getLast?_eq_getElem?]
        rw [tailChunks_get text cs co h text.length 0 (by omega) _ (by omega)]
        have hge := tailChunks_last_ge text cs co h text.length 0 (by omega) hlen
        congr 1
        rw [Nat.zero_add]
        apply List.take_of_length_le
        simp only [List.length_drop]
        omega
  · rfl

/-- C2: for `0 ≤ chunk_overlap < chunk_size` and a non-empty text, removing
from every chunk after the first its first `chunk_overlap` characters (the
overlap with its predecessor) and concatenating reconstructs the text; chunk
`i` is the window of the text starting at `i * (chunk_size - chunk_overlap)`,
every window stays within the text, and exactly the final chunk's window
reaches the text's end. -/
theorem claim_C2 (text : List Char) (cs co : Nat) (h : co < cs) (hne : text ≠ []) :
    ∃ l, simple_text_splitter text cs co = some l ∧
      mergeChunks co l = text ∧
      (∀ i, ∀ hi : i < l.length,
        l.get ⟨i, hi⟩ = (text.drop (i * (cs - co))).take cs) ∧
      (∀ i, ∀ hi : i < l.length,
        i * (cs - co) + (l.get ⟨i, hi⟩).length ≤ text.length) ∧
      (∀ i, ∀ hi : i < l.length,
        (i * (cs - co) + (l.get ⟨i, hi⟩).length = text.length ↔ i = l.length - 1)) := by
  have hlen : 0 < text.length := List.length_pos.mpr hne
  refine ⟨tailChunks text cs co 0, splitter_eq_tailChunks text cs co h, ?_, ?_, ?_, ?_⟩
  · have := tailChunks_merge text cs co h text.length 0 (by omega) hlen
    simpa using this
  · intro i hi
    exact tailChunks_get_elem text cs co h i hi
  · intro i hi
    rw [tailChunks_get_elem text cs co h i hi]
    have hst : 0 + i * (cs - co) < text.length :=
      tailChunks_start_lt text cs co h text.length 0 (by omega) i hi
    simp only [List.length_take, List.length_drop]
    omega
  · intro i hi
    rw [tailChunks_get_elem text cs co h i hi]
    have hst : 0 + i * (cs - co) < text.length :=
      tailChunks_start_lt text cs co h text.length 0 (by omega) i hi
    have hnn := tailChunks_ne_nil text cs co 0 h hlen
    have hpos : 0 < (tailChunks text cs co 0).length := List.length_pos.mpr hnn
    simp only [List.length_take, List.length_drop]
    constructor
    · intro heq
      by_contra hne2
      have hi1 : i + 1 < (tailChunks text cs co 0).length := by omega
      have hwin := tailChunks_window_lt text cs co h text.length 0 (by omega) i hi1
      omega
    · intro heq
      subst heq
      have hge := tailChunks_last_ge text cs co h text.length 0 (by omega) hlen
      omega

/-- C7: whenever `0 ≤ chunk_overlap < chunk_size`, the splitter loop
terminates: the cursor advance is strictly positive, so within the fuel
budget `text.length + 1` the loop always finishes and the result is `some`. -/
theorem claim_C7 (text : List Char) (cs co : Nat) (h : co < cs) :
    (simple_text_splitter text cs co).isSome = true := by
  rw [splitter_eq_tailChunks text cs co h]
  rfl

/-- C9: on any 2500-character text, `chunk(text, 1000, 200)` yields exactly
the three windows `[0,1000)`, `[800,1800)` and `[1600,2500)`, the last of
length 900. -/
theorem claim_C9 (text : List Char) (h : text.length = 2500) :
    simple_text_splitter text 1000 200 =
      some [text.take 1000, (text.drop 800).take 1000, (text.drop 1600).take 1000] ∧
    ((text.drop 1600).take 1000).length = 900 := by
  constructor
  · rw [splitter_eq_tailChunks text 1000 200 (by omega)]
    rw [tailChunks, dif_pos ⟨by omega, by omega⟩, if_neg (by omega)]
    rw [tailChunks, dif_pos ⟨by omega, by omega⟩, if_neg (by omega)]
    rw [tailChunks, dif_pos ⟨by omega, by omega⟩, if_pos (by omega)]
    norm_num
  · simp only [List.length_take, List.length_drop, h]
    omega

/-- Witness for C1 at a concrete 7-character text with `chunk_size = 3`,
`chunk_overlap = 1`. -/
theorem claim_C1_witness :
    ∃ l, simple_text_splitter (List.replicate 7 'a') 3 1 = some l ∧ l ≠ [] ∧
      (∀ c ∈ l.dropLast, c.length = 3) ∧ (∀ c ∈ l, c ≠ []) ∧
      ∃ k, k < (List.replicate 7 'a').length ∧
        l.getLast? = some ((List.replicate 7 'a').drop k) :=
  (claim_C1 (List.replicate 7 'a') 3 1 (by decide)).1 (by decide)

/-- Witness for C2 at a concrete 7-character text. -/
theorem claim_C2_witness :
    ∃ l, simple_text_splitter (List.replicate 7 'a') 3 1 = some l ∧
      mergeChunks 1 l = List.replicate 7 'a' ∧
      (∀ i, ∀ hi : i < l.length,
        l.get ⟨i, hi⟩ = ((List.replicate 7 'a').drop (i * (3 - 1))).take 3) ∧
      (∀ i, ∀ hi : i < l.length,
        i * (3 - 1) + (l.get ⟨i, hi⟩).length ≤ (List.replicate 7 'a').length) ∧
      (∀ i, ∀ hi : i < l.length,
        (i * (3 - 1) + (l.get ⟨i, hi⟩).length = (List.replicate 7 'a').length ↔
          i = l.length - 1)) :=
  claim_C2 (List.replicate 7 'a') 3 1 (by decide) (by decide)

/-- Witness for C7 at a concrete input. -/
theorem claim_C7_witness :
    (simple_text_splitter (List.replicate 5 'a') 3 1).isSome = true :=
  claim_C7 (List.replicate 5 'a') 3 1 (by decide)

/-- Witness for C9 at a concrete 2500-character text. -/
theorem claim_C9_witness :
    simple_text_splitter (List.replicate 2500 'a') 1000 200 =
      some [(List.replicate 2500 'a').take 1000,
        ((List.replicate 2500 'a').drop 800).take 1000,
        ((List.replicate 2500 'a').drop 1600).take 1000] ∧
    (((List.replicate 2500 'a').drop 1600).take 1000).length = 900 :=
  claim_C9 (List.replicate 2500 'a') (by rw [List.length_replicate])

theorem foldl_append_map {α β : Type} (g : α → β) : ∀ (l : List α) (init : List β),
    l.foldl (fun acc a => acc ++ [g a]) init = init ++ l.map g
  | [], init => by simp
  | a :: l, init => by
    simp only [List.foldl_cons, List.map_cons]
    rw [foldl_append_map g l (init ++ [g a])]
    simp

theorem foldl_append_flat {α β : Type} (f : α → List β) : ∀ (l : List α) (init : List β),
    l.foldl (fun acc a => acc ++ f a) init = init ++ l.flatMap f
  | [], init => by simp
  | a :: l, init => by
    simp only [List.foldl_cons, List.flatMap_cons]
    rw [foldl_append_flat f l (init ++ f a)]
    simp

theorem pages_rows_eq (full : List Char) :
    get_docs_pages_df full =
      (splitPages full).flatMap
        (fun b => (chunksOf b 1000 200).map
          (fun c => PageRow.mk (firstSourceUrl b) (String.mk c))) := by
  unfold get_docs_pages_df
  have hfun : (fun (rows : List PageRow) page =>
      (chunksOf page 1000 200).foldl
        (fun rows2 c => rows2 ++ [PageRow.mk (firstSourceUrl page) (String.mk c)]) rows)
      = fun rows page => rows ++ (chunksOf page 1000 200).map
          (fun c => PageRow.mk (firstSourceUrl page) (String.mk c)) := by
    funext rows page
    exact foldl_append_map _ _ _
  rw [hfun, foldl_append_flat]
  simp

theorem rowsOfDict_eq (d : VersionedDocTree) :
    rowsOfDict d = d.flatMap (fun p => rowsOfVersion p.1 p.2) := by
  unfold rowsOfDict
  have hfun : (fun (acc : List DocstringRow) (p : String × List (String × JsonVal)) =>
      p.2.foldl
        (fun acc2 q =>
          (chunksOf (chunkStrOf q.2).data 2000 200).foldl
            (fun acc3 c => acc3 ++ [DocstringRow.mk p.1 q.1 (String.mk c)]) acc2)
        acc)
      = fun acc p => acc ++ rowsOfVersion p.1 p.2 := by
    funext acc p
    have hinner : (fun (acc2 : List DocstringRow) (q : String × JsonVal) =>
        (chunksOf (chunkStrOf q.2).data 2000 200).foldl
          (fun acc3 c => acc3 ++ [DocstringRow.mk p.1 q.1 (String.mk c)]) acc2)
        = fun acc2 q => acc2 ++ (chunksOf (chunkStrOf q.2).data 2000 200).map
            (fun c => DocstringRow.mk p.1 q.1 (String.mk c)) := by
      funext acc2 q
      exact foldl_append_map _ _ _
    rw [hinner, foldl_append_flat]
    rfl
  rw [hfun, foldl_append_flat]
  simp

theorem find?_first_index {α : Type} (p : α → Bool) :
    ∀ (l : List α) (x : α), l.find? p = some x →
      ∃ i, ∃ hi : i < l.length, l.get ⟨i, hi⟩ = x ∧ p x = true ∧
        ∀ j, j < i → ∀ hj : j < l.length, p (l.get ⟨j, hj⟩) = false := by
  intro l
  induction l with
  | nil => intro x hx; simp at hx
  | cons a l ih =>
    intro x hx
    by_cases hpa : p a = true
    · rw [List.find?_cons_of_pos _ hpa] at hx
      refine ⟨0, by simp, by simpa using Option.some.inj hx, ?_, ?_⟩
      · rw [← Option.some.inj hx]
        exact hpa
      · intro j hj hj2
        omega
    · have hpa2 : p a = false := by simpa using hpa
      rw [List.find?_cons_of_neg _ (by simp [hpa2])] at hx
      obtain ⟨i, hi, hget, hpx, hprior⟩ := ih x hx
      refine ⟨i + 1, by simpa using hi, by simpa using hget, hpx, ?_⟩
      intro j hj hj2
      cases j with
      | zero => simpa using hpa2
      | succ j2 =>
        have hj3 : j2 < l.length := by simpa using hj2
        have := hprior j2 (by omega) hj3
        simpa using this

theorem verLt_irrefl : ∀ a : List Nat, verLt a a = false
  | [] => by simp [verLt]
  | a :: as => by simp [verLt, verLt_irrefl as]

theorem verLt_zeros_right : ∀ a c : List Nat,
    c.all (fun b => b == 0) = true → verLt a c = false
  | [], c, h => by simp [verLt, h]
  | x :: as, [], _ => by simp [verLt]
  | x :: as, c0 :: cs, h => by
    simp only [List.all_cons, Bool.and_eq_true, beq_iff_eq] at h
    obtain ⟨h0, hcs⟩ := h
    subst h0
    simp [verLt, verLt_zeros_right as cs hcs]

theorem verLt_zeros_left : ∀ b c : List Nat,
    b.all (fun x => x == 0) = true → verLt b c = !(c.all (fun x => x == 0))
  | [], c, _ => by simp [verLt]
  | b0 :: bs, [], h => by simp [verLt]
  | b0 :: bs, c0 :: cs, h => by
    simp only [List.all_cons, Bool.and_eq_true, beq_iff_eq] at h
    obtain ⟨hb0, hbs⟩ := h
    subst hb0
    by_cases hc0 : c0 = 0
    · subst hc0
      simp [verLt, verLt_zeros_left bs cs hbs]
    · have hpos : 0 < c0 := Nat.pos_of_ne_zero hc0
      simp [verLt, hpos, hc0]

theorem verLt_trans : ∀ a b c : List Nat,
    verLt a b = true → verLt b c = true → verLt a c = true
  | [], b, c, hab, hbc => by
    simp only [verLt] at hab ⊢
    by_contra hc
    have hallc : c.all (fun x => x == 0) = true := by
      cases hcc : c.all (fun x => x == 0)
      · simp [hcc] at hc
      · rfl
    rw [verLt_zeros_right b c hallc] at hbc
    exact absurd hbc (by simp)
  | a0 :: as, [], c, hab, _ => by simp [verLt] at hab
  | a0 :: as, b0 :: bs, [], _, hbc => by simp [verLt] at hbc
  | a0 :: as, b0 :: bs, c0 :: cs, hab, hbc => by
    simp only [verLt, Bool.or_eq_true, Bool.and_eq_true, decide_eq_true_eq,
      beq_iff_eq] at hab hbc ⊢
    rcases hab with h1 | ⟨h1, h2⟩
    · rcases hbc with g1 | ⟨g1, g2⟩
      · left; omega
      · left; omega
    · rcases hbc with g1 | ⟨g1, g2⟩
      · left; omega
      · right
        exact ⟨by omega, verLt_trans as bs cs h2 g2⟩

theorem verLt_neg_trans : ∀ a b c : List Nat,
    verLt a b = false → verLt b c = false → verLt a c = false
  | [], b, c, hab, hbc => by
    simp only [verLt] at hab ⊢
    have hb : b.all (fun x => x == 0) = true := by simpa [verLt] using hab
    rw [verLt_zeros_left b c hb] at hbc
    simpa using hbc
  | a0 :: as, [], c, _, hbc => by
    have hc : c.all (fun x => x == 0) = true := by simpa [verLt] using hbc
    exact verLt_zeros_right _ c hc
  | a0 :: as, b0 :: bs, [], _, _ => by simp [verLt]
  | a0 :: as, b0 :: bs, c0 :: cs, hab, hbc => by
    simp only [verLt, Bool.or_eq_false_iff, Bool.and_eq_false_iff,
      decide_eq_false_iff_not, beq_eq_false_iff_ne, ne_eq] at hab hbc ⊢
    obtain ⟨hab1, hab2⟩ := hab
    obtain ⟨hbc1, hbc2⟩ := hbc
    constructor
    · omega
    · by_cases hac : a0 = c0
      · have hb1 : a0 = b0 := by omega
        have hb2 : b0 = c0 := by omega
        rcases hab2 with h | h
        · exact absurd hb1 h
        · rcases hbc2 with g | g
          · exact absurd hb2 g
          · right
            exact verLt_neg_trans as bs cs h g
      · left
        exact hac

theorem maxOf_mem (v : List Nat) (vs : List (List Nat)) : maxOf v vs ∈ v :: vs := by
  unfold maxOf
  induction vs generalizing v with
  | nil => simp
  | cons x vs ih =>
    simp only [List.foldl_cons]
    have h := ih (if verLt v x then x else v)
    rcases List.mem_cons.mp h with h | h
    · rw [h]
      split
      · simp
      · simp
    · simp [List.mem_cons.mpr (Or.inr (List.mem_cons.mpr (Or.inr h)))]

theorem maxOf_ub (v : List Nat) (vs : List (List Nat)) :
    ∀ w, w ∈ v :: vs → verLt (maxOf v vs) w = false := by
  unfold maxOf
  induction vs generalizing v with
  | nil =>
    intro w hw
    have hwv : w = v := by simpa using hw
    subst hwv
    simpa using verLt_irrefl w
  | cons x vs ih =>
    intro w hw
    simp only [List.foldl_cons]
    rcases List.mem_cons.mp hw with hw | hw
    · subst hw
      by_cases hvx : verLt w x = true
      · rw [if_pos hvx]
        have hx := ih x x (List.mem_cons_self x vs)
        cases hc : verLt (List.foldl (fun acc y => if verLt acc y then y else acc) x vs) w with
        | false => rfl
        | true => exact absurd (verLt_trans _ w x hc hvx) (by simp [hx])
      · have hvx2 : verLt w x = false := by simpa using hvx
        rw [if_neg (by simp [hvx2])]
        exact ih w w (List.mem_cons_self w vs)
    · rcases List.mem_cons.mp hw with hw | hw
      · subst hw
        by_cases hvx : verLt v w = true
        · rw [if_pos hvx]
          exact ih w w (List.mem_cons_self w vs)
        · have hvx2 : verLt v w = false := by simpa using hvx
          rw [if_neg (by simp [hvx2])]
          have hv := ih v v (List.mem_cons_self v vs)
          exact verLt_neg_trans _ v w hv hvx2
      · by_cases hvx : verLt v x = true
        · rw [if_pos hvx]
          exact ih x w (List.mem_cons.mpr (Or.inr hw))
        · rw [if_neg hvx]
          exact ih v w (List.mem_cons.mpr (Or.inr hw))

theorem dictGet_eq_none_of {α : Type} (d : List (String × α)) (k : String)
    (h : ∀ p ∈ d, ¬ p.1 = k) : dictGet d k = none := by
  unfold dictGet
  rw [List.find?_eq_none.mpr]
  · rfl
  · intro p hp
    simp [h p hp]

theorem dictGet_mem {α : Type} (d : List (String × α)) (k : String) (v : α)
    (h : dictGet d k = some v) : (k, v) ∈ d := by
  unfold dictGet at h
  obtain ⟨p0, hfind, hv⟩ := Option.map_eq_some'.mp h
  have hmem := List.mem_of_find?_eq_some hfind
  have hkey := List.find?_some hfind
  have hk : p0.1 = k := by simpa using hkey
  have : p0 = (k, v) := by
    cases p0
    simp only at hk hv
    rw [hk, hv]
  rw [← this]
  exact hmem

theorem dictGet_of_mem_keys {α : Type} (d : List (String × α)) (k : String)
    (h : k ∈ d.map Prod.fst) : ∃ v, dictGet d k = some v := by
  obtain ⟨p0, hp0, hk⟩ := List.mem_map.mp h
  have hsome : (d.find? (fun p => p.1 == k)).isSome = true := by
    rw [List.find?_isSome]
    exact ⟨p0, hp0, by simp [hk]⟩
  obtain ⟨p1, hp1⟩ := Option.isSome_iff_exists.mp hsome
  exact ⟨p1.2, by unfold dictGet; rw [hp1]; rfl⟩

theorem dictSet_append {α : Type} (d : List (String × α)) (k : String) (v : α)
    (h : ∀ p ∈ d, ¬ p.1 = k) : dictSet d k v = d ++ [(k, v)] := by
  unfold dictSet
  rw [if_neg]
  simp only [List.any_eq_true, not_exists, not_and, Bool.not_eq_true]
  intro p hp
  simp [h p hp]

theorem mem_rowsOfVersion_version (ver : String) (docs : List (String × JsonVal))
    (r : DocstringRow) (h : r ∈ rowsOfVersion ver docs) : r.streamlit_version = ver := by
  unfold rowsOfVersion at h
  obtain ⟨q, _, hr⟩ := List.mem_flatMap.mp h
  obtain ⟨c, _, hr2⟩ := List.mem_map.mp hr
  rw [← hr2]

theorem filter_rowsOfVersion_self (ver : String) (docs : List (String × JsonVal)) :
    (rowsOfVersion ver docs).filter (fun r => r.streamlit_version == ver)
      = rowsOfVersion ver docs := by
  apply List.filter_eq_self.mpr
  intro r hr
  simp [mem_rowsOfVersion_version ver docs r hr]

theorem filter_rowsOfVersion_ne (ver key : String) (docs : List (String × JsonVal))
    (h : ¬ ver = key) :
    (rowsOfVersion ver docs).filter (fun r => r.streamlit_version == key) = [] := by
  apply List.filter_eq_nil_iff.mpr
  intro r hr
  simp [mem_rowsOfVersion_version ver docs r hr, h]

theorem strip_rowsOfVersion (v w : String) (docs : List (String × JsonVal)) :
    (rowsOfVersion v docs).map (fun r => (r.command_name, r.docstring_chunk))
      = (rowsOfVersion w docs).map (fun r => (r.command_name, r.docstring_chunk)) := by
  unfold rowsOfVersion
  simp [List.map_flatMap, List.map_map]
  rfl

theorem filter_flatMap {α β : Type} (l : List α) (f : α → List β) (p : β → Bool) :
    (l.flatMap f).filter p = l.flatMap (fun a => (f a).filter p) := by
  induction l with
  | nil => simp
  | cons a l ih => simp [List.filter_append, ih]

theorem filter_rows_none (d : VersionedDocTree) (key : String)
    (h : ∀ p ∈ d, ¬ p.1 = key) :
    ((d.flatMap (fun p => rowsOfVersion p.1 p.2)).filter
      (fun r => r.streamlit_version == key)) = [] := by
  rw [filter_flatMap]
  apply List.flatMap_eq_nil_iff.mpr
  intro p hp
  exact filter_rowsOfVersion_ne p.1 key p.2 (h p hp)

theorem filter_rows_keyed : ∀ (d : VersionedDocTree) (key : String)
    (entry : List (String × JsonVal)),
    (d.map Prod.fst).Nodup → dictGet d key = some entry →
    ((d.flatMap (fun p => rowsOfVersion p.1 p.2)).filter
      (fun r => r.streamlit_version == key)) = rowsOfVersion key entry := by
  intro d
  induction d with
  | nil => intro key entry _ h; simp [dictGet] at h
  | cons p d ih =>
    intro key entry hnd hget
    simp only [List.map_cons, List.nodup_cons] at hnd
    simp only [List.flatMap_cons, List.filter_append]
    by_cases hk : p.1 = key
    · have hfind : dictGet (p :: d) key = some p.2 := by
        unfold dictGet
        rw [List.find?_cons_of_pos _ (by simp [hk])]
        rfl
      rw [hfind] at hget
      have hentry : p.2 = entry := Option.some.inj hget
      have hrest : ∀ q ∈ d, ¬ q.1 = key := by
        intro q hq hqk
        apply hnd.1
        rw [hk, ← hqk]
        exact List.mem_map.mpr ⟨q, hq, rfl⟩
      rw [filter_rows_none d key hrest]
      rw [← hk, ← hentry, filter_rowsOfVersion_self]
      simp
    · have hfind : dictGet (p :: d) key = dictGet d key := by
        unfold dictGet
        rw [List.find?_cons_of_neg _ (by simp [hk])]
      rw [hfind] at hget
      rw [filter_rowsOfVersion_ne p.1 key p.2 hk, ih key entry hnd.2 hget]
      simp

/-- C4: the page rows are exactly one row per chunk of each `^---$`-split
block, chunked whole with `chunk_size=1000, chunk_overlap=200`, each row
carrying the block's `page_url`; and for every block, `page_url` is `none`
exactly when no line starts with `Source: `, and otherwise it is the rest
of the FIRST such line (later `Source:` lines are ignored). -/
theorem claim_C4 (full : List Char) (p : List Char) (_hp : p ∈ splitPages full) :
    get_docs_pages_df full =
      (splitPages full).flatMap
        (fun b => (chunksOf b 1000 200).map
          (fun c => PageRow.mk (firstSourceUrl b) (String.mk c))) ∧
    (firstSourceUrl p = none ↔
      ∀ l ∈ splitOnChar '\n' p, sourceMarker.isPrefixOf l = false) ∧
    (∀ u, firstSourceUrl p = some u →
      ∃ i, ∃ hi : i < (splitOnChar '\n' p).length,
        sourceMarker.isPrefixOf ((splitOnChar '\n' p).get ⟨i, hi⟩) = true ∧
        u = String.mk (((splitOnChar '\n' p).get ⟨i, hi⟩).drop 8) ∧
        ∀ j, j < i → ∀ hj : j < (splitOnChar '\n' p).length,
          sourceMarker.isPrefixOf ((splitOnChar '\n' p).get ⟨j, hj⟩) = false) := by
  refine ⟨pages_rows_eq full, ?_, ?_⟩
  · unfold firstSourceUrl
    rw [Option.map_eq_none', List.find?_eq_none]
    constructor
    · intro h l hl
      exact Bool.eq_false_iff.mpr (h l hl)
    · intro h l hl
      simp [h l hl]
  · intro u hu
    unfold firstSourceUrl at hu
    obtain ⟨l0, hfind, hl0⟩ := Option.map_eq_some'.mp hu
    obtain ⟨i, hi, hget, hpl, hprior⟩ := find?_first_index _ _ l0 hfind
    exact ⟨i, hi, by rw [hget]; exact hpl, by rw [hget, ← hl0], hprior⟩

/-- Witness for C4 at the spec's two-page example corpus, its second block. -/
theorem claim_C4_witness :
    get_docs_pages_df "Source: http://a\nfoo\n---\nSource: http://b\nbar".data =
      (splitPages "Source: http://a\nfoo\n---\nSource: http://b\nbar".data).flatMap
        (fun b => (chunksOf b 1000 200).map
          (fun c => PageRow.mk (firstSourceUrl b) (String.mk c))) ∧
    (firstSourceUrl "\nSource: http://b\nbar".data = none ↔
      ∀ l ∈ splitOnChar '\n' "\nSource: http://b\nbar".data,
        sourceMarker.isPrefixOf l = false) ∧
    (∀ u, firstSourceUrl "\nSource: http://b\nbar".data = some u →
      ∃ i, ∃ hi : i < (splitOnChar '\n' "\nSource: http://b\nbar".data).length,
        sourceMarker.isPrefixOf
          ((splitOnChar '\n' "\nSource: http://b\nbar".data).get ⟨i, hi⟩) = true ∧
        u = String.mk
          (((splitOnChar '\n' "\nSource: http://b\nbar".data).get ⟨i, hi⟩).drop 8) ∧
        ∀ j, j < i →
          ∀ hj : j < (splitOnChar '\n' "\nSource: http://b\nbar".data).length,
            sourceMarker.isPrefixOf
              ((splitOnChar '\n' "\nSource: http://b\nbar".data).get ⟨j, hj⟩) = false) :=
  claim_C4 "Source: http://a\nfoo\n---\nSource: http://b\nbar".data
    "\nSource: http://b\nbar".data (by decide)

/-- C6: when no top-level key parses as a version, `get_docstrings_df` fails
with the `InvalidInputError` of the spec's taxonomy (the `ValueError` that
`max([])` raises) and produces no rows. -/
theorem claim_C6 (d : VersionedDocTree)
    (h : d.filterMap (fun p => parseVer p.1) = []) :
    get_docstrings_df d = Except.error PopulateError.invalidInput := by
  unfold get_docstrings_df
  rw [h]

/-- Witness for C6 at the spec's example `{"bad-tag": {"x": "y"}}`. -/
theorem claim_C6_witness :
    get_docstrings_df [("bad-tag", [("x", JsonVal.str "y")])] =
      Except.error PopulateError.invalidInput :=
  claim_C6 [("bad-tag", [("x", JsonVal.str "y")])] rfl

/-- C10: when at least one key parses but the normalized string of the
greatest parsed version is not itself a key, the lookup
`docstrings_dict[str(latest_version)]` fails with a key error instead of
producing the `latest` alias. -/
theorem claim_C10 (d : VersionedDocTree) (v : List Nat) (vs : List (List Nat))
    (hvs : d.filterMap (fun p => parseVer p.1) = v :: vs)
    (hkey : verString (maxOf v vs) ∉ d.map Prod.fst) :
    get_docstrings_df d =
      Except.error (PopulateError.keyError (verString (maxOf v vs))) := by
  unfold get_docstrings_df
  rw [hvs]
  have hnone : dictGet d (verString (maxOf v vs)) = none := by
    apply dictGet_eq_none_of
    intro p hp hcon
    exact hkey (by rw [← hcon]; exact List.mem_map.mpr ⟨p, hp, rfl⟩)
  show (match dictGet d (verString (maxOf v vs)) with
    | none => Except.error (PopulateError.keyError (verString (maxOf v vs)))
    | some entry => Except.ok (rowsOfDict (dictSet d "latest" entry))) =
    Except.error (PopulateError.keyError (verString (maxOf v vs)))
  rw [hnone]

/-- Witness for C10 at `{"v2.0.0": {"x": "y"}}`: `v2.0.0` parses, its
normalized form `2.0.0` is not a key, and the run fails with that key. -/
theorem claim_C10_witness :
    get_docstrings_df [("v2.0.0", [("x", JsonVal.str "y")])] =
      Except.error (PopulateError.keyError (verString (maxOf [2, 0, 0] []))) :=
  claim_C10 [("v2.0.0", [("x", JsonVal.str "y")])] [2, 0, 0] [] rfl (by decide)

/-- C8: row order is source traversal order.  Page rows are the blocks of the
split in order, each block's chunks in order; docstring rows are the version
entries of the updated dictionary in order (the `latest` entry appended last
when it is synthesized), commands in order inside a version, chunks in order
inside a command — append-only accumulation, no reordering. -/
theorem claim_C8 :
    (∀ full : List Char, get_docs_pages_df full =
      (splitPages full).flatMap
        (fun b => (chunksOf b 1000 200).map
          (fun c => PageRow.mk (firstSourceUrl b) (String.mk c)))) ∧
    (∀ (d : VersionedDocTree) (rows : List DocstringRow),
      get_docstrings_df d = Except.ok rows →
      ∃ entry,
        rows = (dictSet d "latest" entry).flatMap (fun p => rowsOfVersion p.1 p.2) ∧
        ("latest" ∉ d.map Prod.fst →
          dictSet d "latest" entry = d ++ [("latest", entry)])) := by
  constructor
  · exact pages_rows_eq
  · intro d rows h
    unfold get_docstrings_df at h
    cases hvs : d.filterMap (fun p => parseVer p.1) with
    | nil => rw [hvs] at h; exact absurd h (by simp)
    | cons v vs =>
      rw [hvs] at h
      have h2 : (match dictGet d (verString (maxOf v vs)) with
          | none => Except.error (PopulateError.keyError (verString (maxOf v vs)))
          | some entry => Except.ok (rowsOfDict (dictSet d "latest" entry))) =
          Except.ok rows := h
      cases hdg : dictGet d (verString (maxOf v vs)) with
      | none => rw [hdg] at h2; exact absurd h2 (by simp)
      | some entry =>
        rw [hdg] at h2
        refine ⟨entry, ?_, ?_⟩
        · have hrows : rowsOfDict (dictSet d "latest" entry) = rows :=
            Except.ok.inj h2
          rw [← hrows, rowsOfDict_eq]
        · intro hl
          apply dictSet_append
          intro p hp hcon
          exact hl (by rw [← hcon]; exact List.mem_map.mpr ⟨p, hp, rfl⟩)

/-- Witness for C8's docstring part at a one-version tree. -/
theorem claim_C8_witness :
    ∃ entry,
      [DocstringRow.mk "1.0.0" "w" "d", DocstringRow.mk "latest" "w" "d"] =
        (dictSet [("1.0.0", [("w", JsonVal.str "d")])] "latest" entry).flatMap
          (fun p => rowsOfVersion p.1 p.2) ∧
      ("latest" ∉ ([("1.0.0", [("w", JsonVal.str "d")])] : VersionedDocTree).map Prod.fst →
        dictSet [("1.0.0", [("w", JsonVal.str "d")])] "latest" entry =
          [("1.0.0", [("w", JsonVal.str "d")])] ++ [("latest", entry)]) :=
  claim_C8.2 [("1.0.0", [("w", JsonVal.str "d")])]
    [DocstringRow.mk "1.0.0" "w" "d", DocstringRow.mk "latest" "w" "d"] rfl

/-- C3 as amended: when at least one key parses, the keys are distinct, the
key `latest` is not already present, and the normalized string of the
greatest parsed version is itself a key of the input, then exactly the one
key `latest` is added (at the end), it aliases that greatest existing key's
entry, and the rows emitted under `latest` agree with the rows emitted under
that key in command and chunk content. -/
theorem claim_C3 (d : VersionedDocTree) (v : List Nat) (vs : List (List Nat))
    (hvs : d.filterMap (fun p => parseVer p.1) = v :: vs)
    (hnd : (d.map Prod.fst).Nodup)
    (hl : "latest" ∉ d.map Prod.fst)
    (hk : verString (maxOf v vs) ∈ d.map Prod.fst) :
    ∃ entry,
      dictGet d (verString (maxOf v vs)) = some entry ∧
      (verString (maxOf v vs), entry) ∈ d ∧
      get_docstrings_df d = Except.ok (rowsOfDict (d ++ [("latest", entry)])) ∧
      maxOf v vs ∈ v :: vs ∧
      (∀ w ∈ v :: vs, verLt (maxOf v vs) w = false) ∧
      ((rowsOfDict (d ++ [("latest", entry)])).filter
          (fun r => r.streamlit_version == "latest")).map
          (fun r => (r.command_name, r.docstring_chunk))
        = ((rowsOfDict (d ++ [("latest", entry)])).filter
          (fun r => r.streamlit_version == verString (maxOf v vs))).map
          (fun r => (r.command_name, r.docstring_chunk)) := by
  obtain ⟨entry, hget⟩ := dictGet_of_mem_keys d (verString (maxOf v vs)) hk
  have hlat : ∀ p ∈ d, ¬ p.1 = "latest" := by
    intro p hp hcon
    exact hl (by rw [← hcon]; exact List.mem_map.mpr ⟨p, hp, rfl⟩)
  have hklat : ¬ "latest" = verString (maxOf v vs) := by
    intro hcon
    exact hl (hcon ▸ hk)
  have hset : dictSet d "latest" entry = d ++ [("latest", entry)] :=
    dictSet_append d "latest" entry hlat
  refine ⟨entry, hget, dictGet_mem d _ entry hget, ?_, maxOf_mem v vs, maxOf_ub v vs, ?_⟩
  · unfold get_docstrings_df
    rw [hvs]
    show (match dictGet d (verString (maxOf v vs)) with
      | none => Except.error (PopulateError.keyError (verString (maxOf v vs)))
      | some entry => Except.ok (rowsOfDict (dictSet d "latest" entry))) =
      Except.ok (rowsOfDict (d ++ [("latest", entry)]))
    rw [hget]
    show Except.ok (rowsOfDict (dictSet d "latest" entry)) =
      Except.ok (rowsOfDict (d ++ [("latest", entry)]))
    rw [hset]
  · rw [rowsOfDict_eq, List.flatMap_append]
    simp only [List.flatMap_cons, List.flatMap_nil, List.append_nil,
      List.filter_append]
    rw [filter_rows_none d "latest" hlat,
      filter_rows_keyed d (verString (maxOf v vs)) entry hnd hget,
      filter_rowsOfVersion_self "latest" entry,
      filter_rowsOfVersion_ne "latest" (verString (maxOf v vs)) entry hklat]
    simp only [List.nil_append, List.append_nil]
    exact strip_rowsOfVersion "latest" (verString (maxOf v vs)) entry

/-- Counterexample to C3 as stated: in `{"v2.0.0": {"x": "y"}}` one key
parses as a version, yet the extractor raises a key error (the alias is
looked up under the normalized `2.0.0`, which is not a key) instead of
synthesizing a `latest` alias of an existing key. -/
theorem claim_C3_counterexample :
    ([("v2.0.0", [("x", JsonVal.str "y")])] : VersionedDocTree).filterMap
        (fun p => parseVer p.1) = [[2, 0, 0]] ∧
    get_docstrings_df [("v2.0.0", [("x", JsonVal.str "y")])] =
      Except.error (PopulateError.keyError "2.0.0") :=
  ⟨rfl, rfl⟩

/-- Witness for the amended C3 at the spec's example
`{"1.0.0": {"write": "docs"}, "2.0.0": {"write": "more docs"}}`. -/
theorem claim_C3_witness :
    ∃ entry,
      dictGet [("1.0.0", [("write", JsonVal.str "docs")]),
          ("2.0.0", [("write", JsonVal.str "more docs")])]
          (verString (maxOf [1, 0, 0] [[2, 0, 0]])) = some entry ∧
      (verString (maxOf [1, 0, 0] [[2, 0, 0]]), entry) ∈
        ([("1.0.0", [("write", JsonVal.str "docs")]),
          ("2.0.0", [("write", JsonVal.str "more docs")])] : VersionedDocTree) ∧
      get_docstrings_df [("1.0.0", [("write", JsonVal.str "docs")]),
          ("2.0.0", [("write", JsonVal.str "more docs")])] =
        Except.ok (rowsOfDict ([("1.0.0", [("write", JsonVal.str "docs")]),
          ("2.0.0", [("write", JsonVal.str "more docs")])] ++ [("latest", entry)])) ∧
      maxOf [1, 0, 0] [[2, 0, 0]] ∈ [1, 0, 0] :: [[2, 0, 0]] ∧
      (∀ w ∈ [1, 0, 0] :: [[2, 0, 0]], verLt (maxOf [1, 0, 0] [[2, 0, 0]]) w = false) ∧
      ((rowsOfDict ([("1.0.0", [("write", JsonVal.str "docs")]),
            ("2.0.0", [("write", JsonVal.str "more docs")])] ++ [("latest", entry)])).filter
          (fun r => r.streamlit_version == "latest")).map
          (fun r => (r.command_name, r.docstring_chunk))
        = ((rowsOfDict ([("1.0.0", [("write", JsonVal.str "docs")]),
            ("2.0.0", [("write", JsonVal.str "more docs")])] ++ [("latest", entry)])).filter
          (fun r => r.streamlit_version == verString (maxOf [1, 0, 0] [[2, 0, 0]]))).map
          (fun r => (r.command_name, r.docstring_chunk)) :=
  claim_C3 [("1.0.0", [("write", JsonVal.str "docs")]),
      ("2.0.0", [("write", JsonVal.str "more docs")])]
    [1, 0, 0] [[2, 0, 0]] rfl (by decide) (by decide) (by decide)

theorem digitChar_isDigit (d : Nat) : (digitChar d).isDigit = true := by
  unfold digitChar
  split_ifs <;> decide

theorem digitChar_toNat (d : Nat) (h : d < 10) : (digitChar d).toNat = 48 + d := by
  interval_cases d <;> decide

theorem natDigitsAux_irrel : ∀ f1 f2 n acc, n < f1 → n < f2 →
    natDigitsAux f1 n acc = natDigitsAux f2 n acc := by
  intro f1
  induction f1 with
  | zero => intro f2 n acc h1 h2; omega
  | succ f1 ih =>
    intro f2 n acc h1 h2
    cases f2 with
    | zero => omega
    | succ f2 =>
      simp only [natDigitsAux]
      by_cases h10 : n < 10
      · rw [if_pos h10, if_pos h10]
      · rw [if_neg h10, if_neg h10]
        have hlt : n / 10 < n := Nat.div_lt_self (by omega) (by omega)
        exact ih f2 (n / 10) _ (by omega) (by omega)

theorem natDigitsAux_acc : ∀ fuel n acc, n < fuel →
    natDigitsAux fuel n acc = natDigitsAux fuel n [] ++ acc := by
  intro fuel
  induction fuel with
  | zero => intro n acc h; omega
  | succ fuel ih =>
    intro n acc h
    simp only [natDigitsAux]
    by_cases h10 : n < 10
    · rw [if_pos h10, if_pos h10]
      rfl
    · rw [if_neg h10, if_neg h10]
      have hlt : n / 10 < n := Nat.div_lt_self (by omega) (by omega)
      rw [ih (n / 10) (digitChar (n % 10) :: acc) (by omega),
        ih (n / 10) [digitChar (n % 10)] (by omega)]
      simp

theorem natDigits_unfold (n : Nat) :
    natDigits n = if n < 10 then [digitChar n]
      else natDigits (n / 10) ++ [digitChar (n % 10)] := by
  unfold natDigits
  by_cases h10 : n < 10
  · rw [if_pos h10]
    simp only [natDigitsAux]
    rw [if_pos h10]
  · rw [if_neg h10]
    conv_lhs => rw [natDigitsAux]
    rw [if_neg h10]
    have hlt : n / 10 < n := Nat.div_lt_self (by omega) (by omega)
    rw [natDigitsAux_acc n (n / 10) [digitChar (n % 10)] (by omega)]
    congr 1
    exact natDigitsAux_irrel n (n / 10 + 1) (n / 10) [] (by omega) (by omega)

theorem natDigits_ne_nil (n : Nat) : natDigits n ≠ [] := by
  rw [natDigits_unfold]
  split <;> simp

theorem natDigits_digits (n : Nat) : ∀ c ∈ natDigits n, c.isDigit = true := by
  induction n using Nat.strong_induction_on with
  | _ n ih =>
    rw [natDigits_unfold]
    by_cases h10 : n < 10
    · rw [if_pos h10]
      intro c hc
      have hc2 : c = digitChar n := by simpa using hc
      rw [hc2]
      exact digitChar_isDigit n
    · rw [if_neg h10]
      intro c hc
      rcases List.mem_append.mp hc with h | h
      · exact ih (n / 10) (Nat.div_lt_self (by omega) (by omega)) c h
      · have hc2 : c = digitChar (n % 10) := by simpa using h
        rw [hc2]
        exact digitChar_isDigit _

theorem foldl_digits_shift (ds : List Char) : ∀ acc : Nat,
    ds.foldl (fun a c => a * 10 + (c.toNat - 48)) acc
      = acc * 10 ^ ds.length + ds.foldl (fun a c => a * 10 + (c.toNat - 48)) 0 := by
  induction ds with
  | nil => intro acc; simp
  | cons d ds ih =>
    intro acc
    simp only [List.foldl_cons, List.length_cons]
    rw [ih (acc * 10 + (d.toNat - 48)), ih (0 * 10 + (d.toNat - 48))]
    ring

theorem natDigits_val (n : Nat) :
    (natDigits n).foldl (fun a c => a * 10 + (c.toNat - 48)) 0 = n := by
  induction n using Nat.strong_induction_on with
  | _ n ih =>
    rw [natDigits_unfold]
    by_cases h10 : n < 10
    · rw [if_pos h10]
      simp [digitChar_toNat n h10]
    · rw [if_neg h10]
      rw [List.foldl_append]
      rw [foldl_digits_shift [digitChar (n % 10)]
        ((natDigits (n / 10)).foldl (fun a c => a * 10 + (c.toNat - 48)) 0)]
      rw [ih (n / 10) (Nat.div_lt_self (by omega) (by omega))]
      simp only [List.foldl_cons, List.foldl_nil, List.length_cons, List.length_nil]
      rw [digitChar_toNat (n % 10) (by omega)]
      omega

theorem parseAuxD_digits (ds : List Char) (hds : ∀ c ∈ ds, c.isDigit = true) :
    ∀ (acc : Nat) (rest : List Char),
      (∀ c, rest.head? = some c → c.isDigit = false) →
      parseAuxD acc (ds ++ rest)
        = (ds.foldl (fun a c => a * 10 + (c.toNat - 48)) acc, rest) := by
  induction ds with
  | nil =>
    intro acc rest hrest
    simp only [List.nil_append, List.foldl_nil]
    cases rest with
    | nil => rfl
    | cons c r =>
      have hstep : parseAuxD acc (c :: r)
          = if c.isDigit then parseAuxD (acc * 10 + (c.toNat - 48)) r
            else (acc, c :: r) := rfl
      rw [hstep, if_neg]
      simp [hrest c rfl]
  | cons d ds ih =>
    intro acc rest hrest
    have hd : d.isDigit = true := hds d (by simp)
    simp only [List.cons_append, List.foldl_cons]
    have hstep : parseAuxD acc (d :: (ds ++ rest))
        = if d.isDigit then parseAuxD (acc * 10 + (d.toNat - 48)) (ds ++ rest)
          else (acc, d :: (ds ++ rest)) := rfl
    rw [hstep, if_pos hd]
    exact ih (fun c hc => hds c (by simp [hc])) _ rest hrest

theorem parseDigits_natDigits (n : Nat) (rest : List Char)
    (hrest : ∀ c, rest.head? = some c → c.isDigit = false) :
    parseDigits (natDigits n ++ rest) = some (n, rest) := by
  obtain ⟨c, t, hct⟩ := List.exists_cons_of_ne_nil (natDigits_ne_nil n)
  have hc : c.isDigit = true := by
    apply natDigits_digits n
    rw [hct]
    simp
  rw [hct]
  simp only [List.cons_append, parseDigits]
  rw [if_pos hc]
  have harg : c :: (t ++ rest) = natDigits n ++ rest := by
    rw [hct]
    simp
  rw [harg, parseAuxD_digits (natDigits n) (natDigits_digits n) 0 rest hrest,
    natDigits_val n]

theorem parseJStr_cons (c : Char) (r : List Char) :
    parseJStr (c :: r) =
      if c = quoteChar then some ([], r)
      else if c = backslashChar then
        (match r with
         | [] => none
         | e :: r2 =>
           if e = quoteChar ∨ e = backslashChar then
             (parseJStr r2).map (fun p => (e :: p.1, p.2))
           else none)
      else (parseJStr r).map (fun p => (c :: p.1, p.2)) := by
  rw [parseJStr.eq_def]

theorem parseJStr_escape : ∀ (cs rest : List Char),
    parseJStr (escapeStr cs ++ (quoteChar :: rest)) = some (cs, rest)
  | [], rest => by
    have h0 : escapeStr [] ++ (quoteChar :: rest) = quoteChar :: rest := by
      simp [escapeStr]
    rw [h0, parseJStr_cons, if_pos rfl]
  | c :: cs, rest => by
    by_cases hc : c = quoteChar ∨ c = backslashChar
    · have hes : escapeStr (c :: cs) ++ (quoteChar :: rest)
          = backslashChar :: c :: (escapeStr cs ++ (quoteChar :: rest)) := by
        simp [escapeStr, if_pos hc]
      rw [hes, parseJStr_cons, if_neg (by decide), if_pos rfl]
      show (if c = quoteChar ∨ c = backslashChar then
          (parseJStr (escapeStr cs ++ (quoteChar :: rest))).map
            (fun p => (c :: p.1, p.2))
         else none) = some (c :: cs, rest)
      rw [if_pos hc, parseJStr_escape cs rest]
      rfl
    · have hes : escapeStr (c :: cs) ++ (quoteChar :: rest)
          = c :: (escapeStr cs ++ (quoteChar :: rest)) := by
        simp [escapeStr, if_neg hc]
      rw [hes, parseJStr_cons, if_neg (fun h => hc (Or.inl h)),
        if_neg (fun h => hc (Or.inr h)), parseJStr_escape cs rest]
      rfl

theorem char_ne_of_digit {c d : Char} (hc : c.isDigit = true) (hd : d.isDigit = false) :
    ¬ c = d := by
  intro h
  rw [h, hd] at hc
  exact absurd hc (by decide)

theorem intChars_ne_nil (i : Int) : intChars i ≠ [] := by
  unfold intChars
  split
  · simp
  · exact natDigits_ne_nil _

theorem dumps_shape (v : JsonVal) :
    ∃ c t, jsonDumps v = c :: t ∧ ¬ c = ']' ∧ ¬ c = rbraceChar := by
  cases v with
  | null => exact ⟨'n', ['u', 'l', 'l'], rfl, by decide, by decide⟩
  | boolean b =>
    cases b with
    | false => exact ⟨'f', ['a', 'l', 's', 'e'], rfl, by decide, by decide⟩
    | true => exact ⟨'t', ['r', 'u', 'e'], rfl, by decide, by decide⟩
  | num i =>
    by_cases hi : i < 0
    · refine ⟨'-', natDigits i.natAbs, ?_, by decide, by decide⟩
      simp [jsonDumps, intChars, hi]
    · obtain ⟨c, t, hct⟩ := List.exists_cons_of_ne_nil (natDigits_ne_nil i.toNat)
      have hc : c.isDigit = true := by
        apply natDigits_digits
        rw [hct]
        simp
      refine ⟨c, t, ?_, char_ne_of_digit hc (by decide), char_ne_of_digit hc (by decide)⟩
      simp [jsonDumps, intChars, hi, hct]
  | str s =>
    exact ⟨quoteChar, escapeStr s.data ++ [quoteChar], rfl, by decide, by decide⟩
  | arr xs => exact ⟨'[', dumpsArr xs ++ [']'], rfl, by decide, by decide⟩
  | obj fs => exact ⟨lbraceChar, dumpsObj fs ++ [rbraceChar], rfl, by decide, by decide⟩

theorem dumpsArr_cons_head (x : JsonVal) (xs : List JsonVal) :
    ∃ c t, dumpsArr (x :: xs) = c :: t ∧ ¬ c = ']' ∧ ¬ c = rbraceChar := by
  obtain ⟨c, t, hct, h1, h2⟩ := dumps_shape x
  cases xs with
  | nil => exact ⟨c, t, by simp [dumpsArr, hct], h1, h2⟩
  | cons y ys =>
    exact ⟨c, t ++ ',' :: ' ' :: dumpsArr (y :: ys), by simp [dumpsArr, hct], h1, h2⟩

theorem dumpsObj_cons_head (k : String) (v : JsonVal) (fs : List (String × JsonVal)) :
    ∃ t, dumpsObj ((k, v) :: fs) = quoteChar :: t := by
  cases fs with
  | nil => exact ⟨escapeStr k.data ++ [quoteChar] ++ ':' :: ' ' :: jsonDumps v, rfl⟩
  | cons f fs =>
    exact ⟨escapeStr k.data ++ [quoteChar] ++ ':' :: ' ' :: jsonDumps v
      ++ ',' :: ' ' :: dumpsObj (f :: fs), rfl⟩

theorem jsize_pos (v : JsonVal) : 1 ≤ jsize v := by
  cases v <;> simp [jsize] <;> omega

mutual
theorem jsize_le : ∀ v : JsonVal, jsize v ≤ 2 * (jsonDumps v).length
  | .null => by simp [jsize, jsonDumps]
  | .boolean b => by cases b <;> simp [jsize, jsonDumps]
  | .num i => by
    have h1 : intChars i ≠ [] := intChars_ne_nil i
    have h2 : 1 ≤ (intChars i).length := List.length_pos.mpr h1
    simp only [jsize, jsonDumps]
    omega
  | .str s => by
    simp only [jsize, jsonDumps, List.length_cons, List.length_append]
    omega
  | .arr xs => by
    have h := jsizeA_le xs
    simp only [jsize, jsonDumps, List.length_cons, List.length_append,
      List.length_singleton]
    omega
  | .obj fs => by
    have h := jsizeO_le fs
    simp only [jsize, jsonDumps, List.length_cons, List.length_append,
      List.length_singleton]
    omega
theorem jsizeA_le : ∀ xs : List JsonVal, jsizeA xs ≤ 2 * (dumpsArr xs).length + 2
  | [] => by simp [jsizeA, dumpsArr]
  | [x] => by
    have h := jsize_le x
    simp only [jsizeA, dumpsArr]
    omega
  | x :: y :: xs => by
    have h1 := jsize_le x
    have h2 := jsizeA_le (y :: xs)
    simp only [jsizeA, dumpsArr, List.length_append, List.length_cons] at h2 ⊢
    omega
theorem jsizeO_le : ∀ fs : List (String × JsonVal), jsizeO fs ≤ 2 * (dumpsObj fs).length + 2
  | [] => by simp [jsizeO, dumpsObj]
  | [(k, v)] => by
    have h := jsize_le v
    simp only [jsizeO, dumpsObj, List.length_append, List.length_cons]
    omega
  | (k, v) :: f :: fs => by
    have h1 := jsize_le v
    have h2 := jsizeO_le (f :: fs)
    simp only [jsizeO, dumpsObj, List.length_append, List.length_cons] at h2 ⊢
    omega
end

theorem parseJ_digit (fuel : Nat) (c : Char) (r : List Char) (hc : c.isDigit = true) :
    parseJ (fuel + 1) (c :: r)
      = (parseDigits (c :: r)).map (fun p => (JsonVal.num (p.1 : Int), p.2)) := by
  rw [parseJ]
  show (if c = 'n' then
        if r.head? = some 'u' ∧ r.tail.head? = some 'l' ∧ r.tail.tail.head? = some 'l' then
          some (JsonVal.null, r.tail.tail.tail)
        else none
      else if c = 't' then
        if r.head? = some 'r' ∧ r.tail.head? = some 'u' ∧ r.tail.tail.head? = some 'e' then
          some (JsonVal.boolean true, r.tail.tail.tail)
        else none
      else if c = 'f' then
        if r.head? = some 'a' ∧ r.tail.head? = some 'l' ∧ r.tail.tail.head? = some 's'
            ∧ r.tail.tail.tail.head? = some 'e' then
          some (JsonVal.boolean false, r.tail.tail.tail.tail)
        else none
      else if c = '-' then
        (parseDigits r).map (fun p => (JsonVal.num (-(p.1 : Int)), p.2))
      else if c = quoteChar then
        (parseJStr r).map (fun p => (JsonVal.str (String.mk p.1), p.2))
      else if c = '[' then
        if r.head? = some ']' then some (JsonVal.arr [], r.tail)
        else (parseElems fuel r).map (fun p => (JsonVal.arr p.1, p.2))
      else if c = lbraceChar then
        if r.head? = some rbraceChar then some (JsonVal.obj [], r.tail)
        else (parseFields fuel r).map (fun p => (JsonVal.obj p.1, p.2))
      else if c.isDigit then
        (parseDigits (c :: r)).map (fun p => (JsonVal.num (p.1 : Int), p.2))
      else none)
    = (parseDigits (c :: r)).map (fun p => (JsonVal.num (p.1 : Int), p.2))
  rw [if_neg (char_ne_of_digit hc (by decide)), if_neg (char_ne_of_digit hc (by decide)),
    if_neg (char_ne_of_digit hc (by decide)), if_neg (char_ne_of_digit hc (by decide)),
    if_neg (char_ne_of_digit hc (by decide)), if_neg (char_ne_of_digit hc (by decide)),
    if_neg (char_ne_of_digit hc (by decide)), if_pos hc]

theorem parse_dumps_all : ∀ fuel : Nat,
    (∀ (v : JsonVal) (rest : List Char), jsize v ≤ fuel →
      (∀ c, rest.head? = some c → c.isDigit = false) →
      parseJ fuel (jsonDumps v ++ rest) = some (v, rest)) ∧
    (∀ (x : JsonVal) (xs : List JsonVal) (rest : List Char),
      jsizeA (x :: xs) + 1 ≤ fuel →
      parseElems fuel (dumpsArr (x :: xs) ++ (']' :: rest)) = some (x :: xs, rest)) ∧
    (∀ (k : String) (v : JsonVal) (fs : List (String × JsonVal)) (rest : List Char),
      jsizeO ((k, v) :: fs) + 1 ≤ fuel →
      parseFields fuel (dumpsObj ((k, v) :: fs) ++ (rbraceChar :: rest))
        = some ((k, v) :: fs, rest)) := by
  intro fuel
  induction fuel with
  | zero =>
    refine ⟨?_, ?_, ?_⟩
    · intro v rest hsz _
      have := jsize_pos v
      omega
    · intro x xs rest hsz
      omega
    · intro k v fs rest hsz
      omega
  | succ fuel ih =>
    obtain ⟨ih1, ih2, ih3⟩ := ih
    refine ⟨?_, ?_, ?_⟩
    · intro v rest hsz hrest
      cases v with
      | null => rfl
      | boolean b => cases b <;> rfl
      | num i =>
        by_cases hi : i < 0
        · have hd : jsonDumps (JsonVal.num i) ++ rest
              = '-' :: (natDigits i.natAbs ++ rest) := by
            simp [jsonDumps, intChars, hi]
          rw [hd]
          have hstep : parseJ (fuel + 1) ('-' :: (natDigits i.natAbs ++ rest))
              = (parseDigits (natDigits i.natAbs ++ rest)).map
                  (fun p => (JsonVal.num (-(p.1 : Int)), p.2)) := rfl
          rw [hstep, parseDigits_natDigits i.natAbs rest hrest]
          have hni : -((i.natAbs : Nat) : Int) = i := by omega
          show some (JsonVal.num (-((i.natAbs : Nat) : Int)), rest) = some (JsonVal.num i, rest)
          rw [hni]
        · have hd : jsonDumps (JsonVal.num i) ++ rest
              = natDigits i.toNat ++ rest := by
            simp [jsonDumps, intChars, hi]
          obtain ⟨c, t, hct⟩ := List.exists_cons_of_ne_nil (natDigits_ne_nil i.toNat)
          have hcdig : c.isDigit = true := by
            apply natDigits_digits
            rw [hct]
            simp
          rw [hd, hct, List.cons_append, parseJ_digit fuel c (t ++ rest) hcdig]
          have harg : c :: (t ++ rest) = natDigits i.toNat ++ rest := by
            rw [hct]
            simp
          rw [harg, parseDigits_natDigits i.toNat rest hrest]
          have hni : ((i.toNat : Nat) : Int) = i := by omega
          show some (JsonVal.num ((i.toNat : Nat) : Int), rest) = some (JsonVal.num i, rest)
          rw [hni]
      | str s =>
        have hd : jsonDumps (JsonVal.str s) ++ rest
            = quoteChar :: (escapeStr s.data ++ (quoteChar :: rest)) := by
          simp [jsonDumps]
        rw [hd]
        have hstep : parseJ (fuel + 1)
            (quoteChar :: (escapeStr s.data ++ (quoteChar :: rest)))
            = (parseJStr (escapeStr s.data ++ (quoteChar :: rest))).map
                (fun p => (JsonVal.str (String.mk p.1), p.2)) := rfl
        rw [hstep, parseJStr_escape s.data rest]
        rfl
      | arr xs =>
        cases xs with
        | nil => rfl
        | cons x xs =>
          have hd : jsonDumps (JsonVal.arr (x :: xs)) ++ rest
              = '[' :: (dumpsArr (x :: xs) ++ (']' :: rest)) := by
            simp [jsonDumps]
          rw [hd]
          have hstep : parseJ (fuel + 1) ('[' :: (dumpsArr (x :: xs) ++ (']' :: rest)))
              = (if (dumpsArr (x :: xs) ++ (']' :: rest)).head? = some ']'
                 then some (JsonVal.arr [], (dumpsArr (x :: xs) ++ (']' :: rest)).tail)
                 else (parseElems fuel (dumpsArr (x :: xs) ++ (']' :: rest))).map
                   (fun p => (JsonVal.arr p.1, p.2))) := rfl
          rw [hstep]
          obtain ⟨c, t, hct, h1, h2⟩ := dumpsArr_cons_head x xs
          rw [if_neg (by
            rw [hct]
            simp only [List.cons_append, List.head?_cons]
            intro hcon
            exact h1 (Option.some.inj hcon))]
          rw [ih2 x xs rest (by simp only [jsize] at hsz; omega)]
          rfl
      | obj fs =>
        cases fs with
        | nil => rfl
        | cons f fs =>
          obtain ⟨k, v⟩ := f
          have hd : jsonDumps (JsonVal.obj ((k, v) :: fs)) ++ rest
              = lbraceChar :: (dumpsObj ((k, v) :: fs) ++ (rbraceChar :: rest)) := by
            simp [jsonDumps]
          rw [hd]
          have hstep : parseJ (fuel + 1)
              (lbraceChar :: (dumpsObj ((k, v) :: fs) ++ (rbraceChar :: rest)))
              = (if (dumpsObj ((k, v) :: fs) ++ (rbraceChar :: rest)).head? = some rbraceChar
                 then some (JsonVal.obj [],
                   (dumpsObj ((k, v) :: fs) ++ (rbraceChar :: rest)).tail)
                 else (parseFields fuel
                   (dumpsObj ((k, v) :: fs) ++ (rbraceChar :: rest))).map
                   (fun p => (JsonVal.obj p.1, p.2))) := rfl
          rw [hstep]
          obtain ⟨t, hct⟩ := dumpsObj_cons_head k v fs
          rw [if_neg (by
            rw [hct]
            simp only [List.cons_append, List.head?_cons]
            intro hcon
            exact absurd (Option.some.inj hcon) (by decide))]
          rw [ih3 k v fs rest (by simp only [jsize] at hsz; omega)]
          rfl
    · intro x xs rest hsz
      cases xs with
      | nil =>
        have hd : dumpsArr [x] ++ (']' :: rest) = jsonDumps x ++ (']' :: rest) := by
          simp [dumpsArr]
        rw [hd]
        have hstep : parseElems (fuel + 1) (jsonDumps x ++ (']' :: rest))
            = (parseJ fuel (jsonDumps x ++ (']' :: rest))).bind (fun vr =>
                if vr.2.head? = some ']' then some ([vr.1], vr.2.tail)
                else if vr.2.head? = some ',' ∧ vr.2.tail.head? = some ' ' then
                  (parseElems fuel vr.2.tail.tail).map (fun p => (vr.1 :: p.1, p.2))
                else none) := rfl
        rw [hstep, ih1 x (']' :: rest) (by simp only [jsizeA] at hsz; omega)
          (by intro c hc; rw [List.head?_cons] at hc; rw [← Option.some.inj hc]; decide)]
        simp
      | cons y ys =>
        have hd : dumpsArr (x :: y :: ys) ++ (']' :: rest)
            = jsonDumps x ++ (',' :: ' ' :: (dumpsArr (y :: ys) ++ (']' :: rest))) := by
          simp [dumpsArr]
        rw [hd]
        have hstep : parseElems (fuel + 1)
            (jsonDumps x ++ (',' :: ' ' :: (dumpsArr (y :: ys) ++ (']' :: rest))))
            = (parseJ fuel (jsonDumps x
                ++ (',' :: ' ' :: (dumpsArr (y :: ys) ++ (']' :: rest))))).bind (fun vr =>
                if vr.2.head? = some ']' then some ([vr.1], vr.2.tail)
                else if vr.2.head? = some ',' ∧ vr.2.tail.head? = some ' ' then
                  (parseElems fuel vr.2.tail.tail).map (fun p => (vr.1 :: p.1, p.2))
                else none) := rfl
        rw [hstep, ih1 x _ (by simp only [jsizeA] at hsz; omega)
          (by intro c hc; rw [List.head?_cons] at hc; rw [← Option.some.inj hc]; decide)]
        simp only [Option.bind, List.head?_cons, List.tail_cons]
        rw [if_neg (by decide), if_pos (by simp)]
        rw [ih2 y ys rest (by simp only [jsizeA] at hsz ⊢; omega)]
        rfl
    · intro k v fs rest hsz
      cases fs with
      | nil =>
        have hd : dumpsObj [(k, v)] ++ (rbraceChar :: rest)
            = quoteChar :: (escapeStr k.data
              ++ (quoteChar :: (':' :: ' ' :: (jsonDumps v ++ (rbraceChar :: rest))))) := by
          simp [dumpsObj]
        rw [hd]
        have hstep : parseFields (fuel + 1) (quoteChar :: (escapeStr k.data
              ++ (quoteChar :: (':' :: ' ' :: (jsonDumps v ++ (rbraceChar :: rest))))))
            = (parseJStr (escapeStr k.data
                ++ (quoteChar :: (':' :: ' ' :: (jsonDumps v ++ (rbraceChar :: rest)))))).bind
                (fun kr =>
                  if kr.2.head? = some ':' ∧ kr.2.tail.head? = some ' ' then
                    (parseJ fuel kr.2.tail.tail).bind (fun vr =>
                      if vr.2.head? = some rbraceChar then
                        some ([(String.mk kr.1, vr.1)], vr.2.tail)
                      else if vr.2.head? = some ',' ∧ vr.2.tail.head? = some ' ' then
                        (parseFields fuel vr.2.tail.tail).map
                          (fun p => ((String.mk kr.1, vr.1) :: p.1, p.2))
                      else none)
                  else none) := rfl
        rw [hstep,
          parseJStr_escape k.data (':' :: ' ' :: (jsonDumps v ++ (rbraceChar :: rest)))]
        simp only [Option.bind, List.head?_cons, List.tail_cons]
        rw [if_pos (by simp)]
        rw [ih1 v (rbraceChar :: rest) (by simp only [jsizeO] at hsz; omega)
          (by intro c hc; rw [List.head?_cons] at hc; rw [← Option.some.inj hc]; decide)]
        simp only [Option.bind, List.head?_cons, List.tail_cons]
        rw [if_pos trivial]
      | cons f2 fs2 =>
        obtain ⟨k2, v2⟩ := f2
        have hd : dumpsObj ((k, v) :: (k2, v2) :: fs2) ++ (rbraceChar :: rest)
            = quoteChar :: (escapeStr k.data
              ++ (quoteChar :: (':' :: ' ' :: (jsonDumps v
                ++ (',' :: ' ' :: (dumpsObj ((k2, v2) :: fs2)
                  ++ (rbraceChar :: rest))))))) := by
          simp [dumpsObj]
        rw [hd]
        have hstep : parseFields (fuel + 1) (quoteChar :: (escapeStr k.data
              ++ (quoteChar :: (':' :: ' ' :: (jsonDumps v
                ++ (',' :: ' ' :: (dumpsObj ((k2, v2) :: fs2) ++ (rbraceChar :: rest))))))))
            = (parseJStr (escapeStr k.data
                ++ (quoteChar :: (':' :: ' ' :: (jsonDumps v
                  ++ (',' :: ' ' :: (dumpsObj ((k2, v2) :: fs2)
                    ++ (rbraceChar :: rest)))))))).bind
                (fun kr =>
                  if kr.2.head? = some ':' ∧ kr.2.tail.head? = some ' ' then
                    (parseJ fuel kr.2.tail.tail).bind (fun vr =>
                      if vr.2.head? = some rbraceChar then
                        some ([(String.mk kr.1, vr.1)], vr.2.tail)
                      else if vr.2.head? = some ',' ∧ vr.2.tail.head? = some ' ' then
                        (parseFields fuel vr.2.tail.tail).map
                          (fun p => ((String.mk kr.1, vr.1) :: p.1, p.2))
                      else none)
                  else none) := rfl
        rw [hstep,
          parseJStr_escape k.data (':' :: ' ' :: (jsonDumps v
            ++ (',' :: ' ' :: (dumpsObj ((k2, v2) :: fs2) ++ (rbraceChar :: rest)))))]
        simp only [Option.bind, List.head?_cons, List.tail_cons]
        rw [if_pos (by simp)]
        rw [ih1 v (',' :: ' ' :: (dumpsObj ((k2, v2) :: fs2) ++ (rbraceChar :: rest)))
          (by simp only [jsizeO] at hsz; omega)
          (by intro c hc; rw [List.head?_cons] at hc; rw [← Option.some.inj hc]; decide)]
        simp only [Option.bind, List.head?_cons, List.tail_cons]
        rw [if_neg (by decide), if_pos (by simp)]
        rw [ih3 k2 v2 fs2 rest (by simp only [jsizeO] at hsz ⊢; omega)]
        rfl

theorem jsonLoads_dumps (v : JsonVal) : jsonLoads (String.mk (jsonDumps v)) = some v := by
  unfold jsonLoads
  have hdata : (String.mk (jsonDumps v)).data = jsonDumps v := rfl
  rw [hdata]
  have hb := jsize_le v
  have h := (parse_dumps_all (2 * (jsonDumps v).length + 2)).1 v [] (by omega)
    (by intro c hc; simp at hc)
  rw [List.append_nil] at h
  rw [h]

/-- C5 as amended: only a dict doc value is serialized with `json.dumps`
(and re-parsing that JSON string reproduces the original value); every other
value — including arrays — is rendered with Python `str(...)` instead. -/
theorem claim_C5 (v : JsonVal) :
    (∀ fs, v = JsonVal.obj fs →
      chunkStrOf v = String.mk (jsonDumps v) ∧
      jsonLoads (chunkStrOf v) = some v) ∧
    ((∀ fs, ¬ v = JsonVal.obj fs) → chunkStrOf v = String.mk (pyStr v)) := by
  constructor
  · intro fs hfs
    subst hfs
    exact ⟨rfl, jsonLoads_dumps (JsonVal.obj fs)⟩
  · intro hno
    cases v with
    | obj fs => exact absurd rfl (hno fs)
    | null => rfl
    | str s => rfl
    | num i => rfl
    | boolean b => rfl
    | arr xs => rfl

/-- Counterexample to C5 as stated: the array doc value `["a"]` is a
structured (array-like) value, but the code routes it through `str(...)`,
producing the Python repr `['a']` (single quotes), which is not JSON —
re-parsing it fails instead of reproducing the value. -/
theorem claim_C5_counterexample :
    chunkStrOf (JsonVal.arr [JsonVal.str "a"])
      = String.mk ['[', squoteChar, 'a', squoteChar, ']'] ∧
    jsonLoads (chunkStrOf (JsonVal.arr [JsonVal.str "a"])) = none :=
  ⟨rfl, rfl⟩

/-- Witness for the amended C5 at a dict value and a plain string value. -/
theorem claim_C5_witness :
    (chunkStrOf (JsonVal.obj [("a", JsonVal.str "b")])
      = String.mk (jsonDumps (JsonVal.obj [("a", JsonVal.str "b")])) ∧
     jsonLoads (chunkStrOf (JsonVal.obj [("a", JsonVal.str "b")]))
      = some (JsonVal.obj [("a", JsonVal.str "b")])) ∧
    chunkStrOf (JsonVal.str "plain") = String.mk (pyStr (JsonVal.str "plain")) :=
  ⟨(claim_C5 (JsonVal.obj [("a", JsonVal.str "b")])).1 _ rfl,
   (claim_C5 (JsonVal.str "plain")).2 (fun _ h => JsonVal.noConfusion h)⟩

end PopulateData
